import Mathlib

/-!
# Verification of the dag-sorting pipeline scheduler (`src/main.py`)

This file gives a shallow embedding of the two core components of the
repository:

* the Dependency Orderer (`topological_sort_util`, `topological_sort`,
  `reorder_tasks`), and
* the Schedule Simulator (`execute_tasks`),

and proves/refutes the frozen specification claims about them.

Modelling conventions:

* A task `[task_name, execution_time, dependencies]` (a Python 3-element
  list) is `String × Int × List String`.  Durations are modelled as `Int`
  because Python integers are unbounded and `read_pipeline_file` can
  produce any integer; the data-model invariant `duration ≥ 1` appears as
  a hypothesis where a claim needs it.
* A group `[[group_name], task, ...]` is `String × List TaskE`.
* Python `set`s of strings are modelled as insertion-ordered duplicate-free
  lists; only membership and emptiness of these sets are ever observed by
  the program, except for iteration over `graph[node]` in
  `topological_sort_util`, whose order Python leaves unspecified (hash
  order); we fix insertion order.  All claim counterexamples below use
  sets of size ≤ 1, where every iteration order coincides.
* The Python `dict` `task_time_remaining` is an insertion-ordered
  association list: assignment keeps the position of an existing key,
  `del` removes it, and truthiness is non-emptiness.
* `sorted(tasks, key=...)` is modelled by a stable insertion sort
  (`sortedByKey`); Python's `sorted` is specified exactly as a stable
  sort with respect to `≤` on keys.
* The two unbounded loops of the source are modelled with explicit fuel:
  - the recursion of `topological_sort_util` is bounded by the number of
    group members, which is a strict bound on its recursion depth because
    each nested call marks a previously unvisited group member (the
    Python code additionally raises `KeyError` if a graph successor is
    not a group member; successors built by `reorder_tasks` are always
    group members, so the two models agree on every reachable input);
  - the minute loop of `execute_tasks` gets fuel `1 + Σ durations`; when
    every duration is ≥ 1 this is proved sufficient (each non-final
    iteration schedules at least one task, decreasing the remaining
    work), matching the Python loop which terminates on exactly those
    inputs.
-/

namespace DagSorting

/-- A task record `[task_name, execution_time, dependencies]`. -/
abbrev TaskE := String × Int × List String

/-- A group `[[group_name], task, ...]`: name plus its task list. -/
abbrev GroupE := String × List TaskE

/-- A pipeline: the list of groups, in first-seen order. -/
abbrev PipelineE := List GroupE

/-- One execution-trace entry `(minute, next_minute_tasks, group_name)`. -/
abbrev Entry := Nat × List String × String

/-- Insertion into a Python `set` modelled as a duplicate-free list. -/
def setInsert (s : List String) (x : String) : List String :=
  if x ∈ s then s else x :: s

/-! ## Dependency Orderer -/

/-- The dependency graph of `reorder_tasks`:
`graph[dependency].add(task_name)` for every declared dependency, i.e.
the successors of `d` are the (group-local) tasks that list `d` as a
dependency, in input order (`defaultdict(set)` with iteration modelled
as insertion order). -/
def buildGraph (tasks : List TaskE) : String → List String :=
  fun d => (tasks.filter (fun t => d ∈ t.2.2)).map (fun t => t.1)

/-- The `for i in graph[node]` loop of `topological_sort_util`:
process the successor list in order, recursing (via `visit`) into each
one not yet visited. -/
def tsChildren (visit : String → List String × List String → List String × List String) :
    List String → List String × List String → List String × List String
  | [], st => st
  | i :: rest, st =>
    tsChildren visit rest (if i ∈ st.1 then st else visit i st)

/-- `topological_sort_util(graph, node, visited, stack)`: mark `node`
visited, recurse into each unvisited successor, then prepend `node` to
the stack.  State is `(visited, stack)`.  The fuel argument bounds the
recursion depth; it never runs out when successors of reachable nodes
are group members (see the header comment). -/
def topological_sort_util (graph : String → List String) :
    Nat → String → List String × List String → List String × List String
  | 0, _, st => st
  | fuel+1, node, st =>
    let st1 :=
      tsChildren (topological_sort_util graph fuel) (graph node)
        (node :: st.1, st.2)
    (st1.1, node :: st1.2)

/-- `topological_sort(graph, nodes)`: run the DFS from every node in
input order, returning the accumulated stack. -/
def topological_sort (graph : String → List String) (nodes : List String) :
    List String :=
  (nodes.foldl
    (fun st node =>
      if node ∈ st.1 then st
      else topological_sort_util graph nodes.length node st)
    ([], [])).2

/-- Stable insertion of `x` after every element whose key is ≤ `x`'s:
the model of how Python's stable `sorted` places elements. -/
def stableInsert (le : TaskE → TaskE → Bool) (x : TaskE) :
    List TaskE → List TaskE
  | [] => [x]
  | y :: rest => if le y x then y :: stableInsert le x rest else x :: y :: rest

/-- `sorted(tasks, key=...)` as a stable insertion sort on the `≤` of
keys. -/
def sortedByKey (le : TaskE → TaskE → Bool) : List TaskE → List TaskE
  | [] => []
  | x :: rest => stableInsert le x (sortedByKey le rest)

/-- Reordering of one group of `reorder_tasks`: build the dependency
graph, topologically sort the task names, and reorder the task records
by `sorted_tasks.index(task_name)`. -/
def reorder_group (g : GroupE) : GroupE :=
  let tasks := g.2
  let nodes := tasks.map (fun t => t.1)
  let graph := buildGraph tasks
  let sorted_tasks := topological_sort graph nodes
  (g.1, sortedByKey
    (fun a b => sorted_tasks.indexOf a.1 ≤ sorted_tasks.indexOf b.1) tasks)

/-- `reorder_tasks`: reorder every group of the pipeline in place. -/
def reorder_tasks (pipeline_list : PipelineE) : PipelineE :=
  pipeline_list.map reorder_group

/-! ## Schedule Simulator -/

/-- `task_time_remaining` as an insertion-ordered association list. -/
abbrev RemainingMap := List (String × Int)

/-- `d[k]` (defined only when the key is present; reachable states of the
simulator only look up present keys). -/
def rmGet (m : RemainingMap) (k : String) : Int :=
  ((m.find? (fun p => p.1 = k)).map (fun p => p.2)).getD 0

/-- `d[k] = v`: overwrite in place if present, else append. -/
def rmSet (m : RemainingMap) (k : String) (v : Int) : RemainingMap :=
  if (m.find? (fun p => p.1 = k)).isSome then
    m.map (fun p => if p.1 = k then (p.1, v) else p)
  else m ++ [(k, v)]

/-- `del d[k]`. -/
def rmDel (m : RemainingMap) (k : String) : RemainingMap :=
  m.filter (fun p => ¬ p.1 = k)

/-- The mutable simulator state carried across time units. -/
structure SimSt where
  remaining : RemainingMap
  completed : List String
  pool : List TaskE        -- no_group_tasks (FIFO, head popped on completion)
  familyIndex : Nat
  deriving Repr, DecidableEq

/-- The per-minute scheduling accumulator:
`next_minute_tasks`, `current_minute_tasks`, and the mutated global
state pieces. -/
structure MinSt where
  next : List String       -- next_minute_tasks (appended in order)
  current : List String    -- current_minute_tasks (a set)
  remaining : RemainingMap
  completed : List String
  deriving Repr, DecidableEq

/-- The dependency-eligibility test of lines 113 and 134:
`all(dep in completed_tasks ...) and all(dep not in current_minute_tasks ...)`. -/
def eligible (ms : MinSt) (deps : List String) : Bool :=
  deps.all (fun dep => dep ∈ ms.completed) &&
  deps.all (fun dep => ¬ dep ∈ ms.current)

/-- Lines 114–121 / 135–142: schedule one task for this minute:
append it to `next_minute_tasks`, add it to `current_minute_tasks`,
decrement its remaining time, and on reaching zero mark it completed
and delete it from the remaining map.  Also returns whether the task
completed (used by the `no_group` branch to pop the pool). -/
def scheduleTask (ms : MinSt) (name : String) : MinSt × Bool :=
  let r := rmGet ms.remaining name - 1
  let rem := rmSet ms.remaining name r
  if r = 0 then
    ({ next := ms.next ++ [name], current := setInsert ms.current name,
       remaining := rmDel rem name, completed := setInsert ms.completed name },
     true)
  else
    ({ next := ms.next ++ [name], current := setInsert ms.current name,
       remaining := rem, completed := ms.completed },
     false)

/-- Lines 110–125: the `for task in task_list[family_index][1:]` loop,
with the `break` once `len(next_minute_tasks) == cpu_count`. -/
def familyPass (cpu_count : Nat) : List TaskE → MinSt → MinSt
  | [], ms => ms
  | t :: rest, ms =>
    if t.1 ∈ ms.completed then familyPass cpu_count rest ms
    else if eligible ms t.2.2 then
      let ms1 := (scheduleTask ms t.1).1
      if ms1.next.length = cpu_count then ms1
      else familyPass cpu_count rest ms1
    else familyPass cpu_count rest ms

/-- Lines 131–143: try to fill one extra slot from the head of the
`no_group` pool; the pool head is popped only when it completes. -/
def poolPass (cpu_count : Nat) (ms : MinSt) (pool : List TaskE) :
    MinSt × List TaskE :=
  if ms.next.length < cpu_count then
    match pool with
    | [] => (ms, pool)
    | t :: rest =>
      if eligible ms t.2.2 then
        let res := scheduleTask ms t.1
        (res.1, if res.2 then rest else t :: rest)
      else (ms, pool)
  else (ms, pool)

/-- One iteration of the minute loop (lines 104–147), returning the new
state and the trace entry appended for this minute. -/
def simStep (families : List GroupE) (cpu_count : Nat) (minute : Nat)
    (st : SimSt) : SimSt × Entry :=
  let ms0 : MinSt := { next := [], current := [],
                       remaining := st.remaining, completed := st.completed }
  let ms1 :=
    match families[st.familyIndex]? with
    | some fam => familyPass cpu_count fam.2 ms0
    | none => ms0
  let fidx :=
    match families[st.familyIndex]? with
    | some fam =>
      if fam.2.all (fun t => t.1 ∈ ms1.completed) then st.familyIndex + 1
      else st.familyIndex
    | none => st.familyIndex
  let pp := poolPass cpu_count ms1 st.pool
  let label :=
    match families[fidx]? with
    | some fam => fam.1
    | none => "no_group"
  ({ remaining := pp.1.remaining, completed := pp.1.completed,
     pool := pp.2, familyIndex := fidx },
   (minute, pp.1.next, label))

/-- The `while family_index < len(task_list) or task_time_remaining:`
loop, with explicit fuel; returns the remaining part of the execution
map.  When a minute schedules nothing the entry is still appended and
the loop breaks. -/
def simLoop (families : List GroupE) (cpu_count : Nat) :
    Nat → Nat → SimSt → List Entry
  | 0, _, _ => []
  | fuel+1, minute, st =>
    if st.familyIndex < families.length ∨ st.remaining ≠ [] then
      let r := simStep families cpu_count (minute + 1) st
      if r.2.2.1 = [] then [r.2]
      else r.2 :: simLoop families cpu_count fuel (minute + 1) r.1
    else []

/-- Initial remaining map: all family tasks then all pool tasks,
`task_time_remaining[name] = duration`. -/
def initRemaining (families : List GroupE) (pool : List TaskE) : RemainingMap :=
  pool.foldl (fun m t => rmSet m t.1 t.2.1)
    (families.foldl
      (fun m fam => fam.2.foldl (fun m t => rmSet m t.1 t.2.1) m) [])

/-- Total fuel that provably suffices for the minute loop on inputs whose
durations are all ≥ 1: one unit per unit of work, plus one final
(possibly empty) minute. -/
def simFuel (task_list : PipelineE) : Nat :=
  (task_list.foldl (fun a g => g.2.foldl (fun a t => a + t.2.1.toNat) a) 0) + 1

/-- The ordered families of the simulator (line 88: groups other than
`no_group`). -/
def simFamilies (task_list : PipelineE) : List GroupE :=
  task_list.filter (fun g => ¬ g.1 = "no_group")

/-- The `no_group` pool of the simulator (lines 86–87: the tasks of the
first `no_group` group, if any). -/
def simPool (task_list : PipelineE) : List TaskE :=
  match task_list.filter (fun g => g.1 = "no_group") with
  | [] => []
  | g :: _ => g.2

/-- All tasks the simulator tracks, in the order their remaining times
are initialised: family tasks in group order, then pool tasks. -/
def simTasks (task_list : PipelineE) : List TaskE :=
  (simFamilies task_list).flatMap (fun g => g.2) ++ simPool task_list

/-- `execute_tasks(task_list, cpu_count)` (lines 82–153). -/
def execute_tasks (task_list : PipelineE) (cpu_count : Nat) : List Entry :=
  simLoop (simFamilies task_list) cpu_count (simFuel task_list) 0
    { remaining := initRemaining (simFamilies task_list) (simPool task_list),
      completed := [], pool := simPool task_list, familyIndex := 0 }

/-! ## Basic facts about the orderer -/

theorem stableInsert_perm (le : TaskE → TaskE → Bool) (x : TaskE) :
    ∀ l : List TaskE, (stableInsert le x l).Perm (x :: l)
  | [] => List.Perm.refl _
  | y :: rest => by
    unfold stableInsert
    split
    · exact ((stableInsert_perm le x rest).cons y).trans (List.Perm.swap x y rest)
    · exact List.Perm.refl _

theorem sortedByKey_perm (le : TaskE → TaskE → Bool) :
    ∀ l : List TaskE, (sortedByKey le l).Perm l
  | [] => List.Perm.refl _
  | x :: rest => by
    unfold sortedByKey
    exact (stableInsert_perm le x _).trans ((sortedByKey_perm le rest).cons x)

theorem reorder_group_perm (g : GroupE) : ((reorder_group g).2).Perm g.2 :=
  sortedByKey_perm _ _

theorem stableInsert_of_all_le (le : TaskE → TaskE → Bool) (x : TaskE) :
    ∀ l : List TaskE, (∀ y ∈ l, le y x = true) → stableInsert le x l = l ++ [x]
  | [], _ => rfl
  | y :: rest, h => by
    unfold stableInsert
    rw [if_pos (h y (List.mem_cons_self y rest))]
    rw [stableInsert_of_all_le le x rest (fun z hz => h z (List.mem_cons_of_mem y hz))]
    rfl

theorem sortedByKey_of_pairwise_rev (le : TaskE → TaskE → Bool) :
    ∀ l : List TaskE, l.Pairwise (fun a b => le b a = true) →
      sortedByKey le l = l.reverse
  | [], _ => rfl
  | x :: rest, h => by
    unfold sortedByKey
    obtain ⟨hx, hrest⟩ := List.pairwise_cons.mp h
    rw [sortedByKey_of_pairwise_rev le rest hrest]
    rw [stableInsert_of_all_le le x _ (fun y hy => hx y (List.mem_reverse.mp hy))]
    simp

theorem topological_sort_util_no_children (graph : String → List String)
    (fuel : Nat) (node : String) (st : List String × List String)
    (h : graph node = []) :
    topological_sort_util graph (fuel + 1) node st = (node :: st.1, node :: st.2) := by
  simp [topological_sort_util, h, tsChildren]

theorem roots_fold_empty_graph (graph : String → List String) (K : Nat)
    (hK : 1 ≤ K) :
    ∀ (l : List String) (V S : List String), l.Nodup →
      (∀ n ∈ l, graph n = []) → (∀ n ∈ l, n ∉ V) →
      l.foldl
        (fun st node => if node ∈ st.1 then st
          else topological_sort_util graph K node st) (V, S)
        = (l.reverse ++ V, l.reverse ++ S)
  | [], V, S, _, _, _ => by simp
  | x :: rest, V, S, hnd, hg, hV => by
    obtain ⟨K', rfl⟩ : ∃ K', K = K' + 1 := ⟨K - 1, by omega⟩
    have hx : x ∉ V := hV x (List.mem_cons_self x rest)
    simp only [List.foldl_cons, if_neg hx]
    rw [topological_sort_util_no_children graph K' x (V, S)
      (hg x (List.mem_cons_self x rest))]
    rw [roots_fold_empty_graph graph (K' + 1) hK rest (x :: V) (x :: S)
      (List.Nodup.of_cons hnd)
      (fun n hn => hg n (List.mem_cons_of_mem x hn))
      (fun n hn => by
        intro hmem
        rcases List.mem_cons.mp hmem with h | h
        · exact (List.nodup_cons.mp hnd).1 (h ▸ hn)
        · exact hV n (List.mem_cons_of_mem x hn) h)]
    simp

theorem topological_sort_empty_graph (graph : String → List String)
    (nodes : List String) (hnd : nodes.Nodup)
    (hg : ∀ n ∈ nodes, graph n = []) :
    topological_sort graph nodes = nodes.reverse := by
  cases nodes with
  | nil => rfl
  | cons x rest =>
    unfold topological_sort
    rw [roots_fold_empty_graph graph (x :: rest).length (by simp) (x :: rest)
      [] [] hnd hg (by simp)]
    simp

/-- The validity predicate of the Dependency Orderer's contract: every
dependency of a task that names another task of the same sequence sits
at a strictly earlier index. -/
def depIndexOK (tasks : List TaskE) : Prop :=
  ∀ j : Fin tasks.length, ∀ d ∈ (tasks.get j).2.2,
    d ∈ tasks.map (fun t => t.1) →
    (tasks.map (fun t => t.1)).indexOf d < j.1

instance (tasks : List TaskE) : Decidable (depIndexOK tasks) := by
  unfold depIndexOK; infer_instance

theorem indexOf_reverse_anti {ns : List String} (hnd : ns.Nodup)
    (i j : Fin ns.length) (hij : i < j) :
    ns.reverse.indexOf (ns.get j) ≤ ns.reverse.indexOf (ns.get i) := by
  have hi : ns.length - 1 - i.1 < ns.reverse.length := by
    have := i.2; simp; omega
  have hj : ns.length - 1 - j.1 < ns.reverse.length := by
    have := j.2; simp; omega
  have hgi : ns.reverse.get ⟨ns.length - 1 - i.1, hi⟩ = ns.get i :=
    List.get_reverse ns i.1 hi i.2
  have hgj : ns.reverse.get ⟨ns.length - 1 - j.1, hj⟩ = ns.get j :=
    List.get_reverse ns j.1 hj j.2
  have hndr : ns.reverse.Nodup := List.nodup_reverse.mpr hnd
  rw [← hgi, ← hgj, List.get_indexOf hndr, List.get_indexOf hndr]
  have := i.2; have := j.2
  simp only [Fin.lt_def] at hij
  simp only [Fin.val_mk]
  omega

theorem reorder_group_no_intra_deps (g : GroupE)
    (hnd : (g.2.map (fun t => t.1)).Nodup)
    (hdep : ∀ t ∈ g.2, ∀ u ∈ g.2, ¬ u.1 ∈ t.2.2) :
    reorder_group g = (g.1, g.2.reverse) := by
  have hg : ∀ n ∈ g.2.map (fun t => t.1), buildGraph g.2 n = [] := by
    intro n hn
    obtain ⟨u, hu, rfl⟩ := List.mem_map.mp hn
    unfold buildGraph
    rw [List.filter_eq_nil_iff.mpr (fun t ht => by
      simpa using hdep t ht u hu)]
    rfl
  simp only [reorder_group]
  rw [topological_sort_empty_graph _ _ hnd hg]
  have hpw : g.2.Pairwise (fun a b =>
      (decide ((g.2.map (fun t => t.1)).reverse.indexOf b.1 ≤
        (g.2.map (fun t => t.1)).reverse.indexOf a.1)) = true) := by
    have hnames : (g.2.map (fun t => t.1)).Pairwise (fun x y =>
        (g.2.map (fun t => t.1)).reverse.indexOf y ≤
        (g.2.map (fun t => t.1)).reverse.indexOf x) := by
      rw [List.pairwise_iff_get]
      intro i j hij
      exact indexOf_reverse_anti hnd i j hij
    have := (List.pairwise_map.mp hnames)
    exact this.imp (fun h => by simpa using h)
  rw [sortedByKey_of_pairwise_rev _ _ hpw]

theorem reorder_tasks_forall₂ (q : PipelineE) :
    List.Forall₂ (fun g g' => g.1 = g'.1 ∧ (g'.2).Perm g.2) q (reorder_tasks q) := by
  induction q with
  | nil => exact List.Forall₂.nil
  | cons g rest ih => exact List.Forall₂.cons ⟨rfl, reorder_group_perm g⟩ ih

/-! ## Claim C4: behaviour of the orderer on a cyclic group -/

/-- C4 counterexample: on the two-task cycle `A→B→A` the orderer does
not fail: it returns normally (there is no `CyclicDependencyError`
anywhere in the code), with a complete task sequence that is not a
valid topological order. -/
theorem C4_counterexample :
    reorder_tasks [("G1", [("A", 1, ["B"]), ("B", 1, ["A"])])]
      = [("G1", [("A", 1, ["B"]), ("B", 1, ["A"])])] ∧
    ¬ depIndexOK [("A", 1, ["B"]), ("B", 1, ["A"])] := by decide

/-- C4 amended: on every group — cyclic ones included — the orderer
terminates without raising any error (the boolean visited marking stops
the recursion) and silently returns a sequence containing exactly the
group's tasks; on a cyclic group that sequence is not a valid
topological order. -/
theorem C4_amended_silent_complete (p : PipelineE) :
    List.Forall₂ (fun g g' => g.1 = g'.1 ∧ (g'.2).Perm g.2) p (reorder_tasks p) :=
  reorder_tasks_forall₂ p

/-! ## Claim C8: idempotence of the orderer -/

/-- C8 counterexample: re-running the orderer on its own output changes
the order: a two-task dependency-free group is reversed by every run. -/
theorem C8_counterexample :
    reorder_tasks (reorder_tasks [("G1", [("X", 1, []), ("Y", 1, [])])])
      ≠ reorder_tasks [("G1", [("X", 1, []), ("Y", 1, [])])] := by decide

/-- C8 amended: re-running the orderer on its own output yields groups
with the same names containing exactly the same tasks (a permutation),
but not necessarily in the same order. -/
theorem C8_amended_permutation (p : PipelineE) :
    List.Forall₂ (fun g g' => g.1 = g'.1 ∧ (g'.2).Perm g.2)
      (reorder_tasks p) (reorder_tasks (reorder_tasks p)) :=
  reorder_tasks_forall₂ (reorder_tasks p)

/-! ## Claim C9: tie-breaking order -/

/-- C9 counterexample: two tasks unrelated by the dependency relation do
not keep their input order: with input order `X` then `Y` (no
dependencies at all) the orderer outputs `Y` then `X`. -/
theorem C9_counterexample :
    (reorder_tasks [("G1", [("X", 1, []), ("Y", 1, [])])]).map
        (fun g => g.2.map (fun t => t.1)) = [["Y", "X"]] ∧
    ¬ ((reorder_tasks [("G1", [("X", 1, []), ("Y", 1, [])])]).map
        (fun g => g.2.map (fun t => t.1)) = [["X", "Y"]]) := by decide

/-- C9 amended: ties are not broken by input order; for a group with
distinct task names in which no task depends on another task of the
same group, the orderer returns the tasks in exactly reversed input
order (the DFS prepends each root in turn). -/
theorem C9_amended_reversal (p : PipelineE) (g : GroupE) (hg : g ∈ p)
    (hnd : (g.2.map (fun t => t.1)).Nodup)
    (hdep : ∀ t ∈ g.2, ∀ u ∈ g.2, ¬ u.1 ∈ t.2.2) :
    (g.1, g.2.reverse) ∈ reorder_tasks p := by
  have : reorder_group g = (g.1, g.2.reverse) :=
    reorder_group_no_intra_deps g hnd hdep
  exact this ▸ List.mem_map_of_mem reorder_group hg

/-- C9 witness: the amended theorem applied to the concrete two-task
dependency-free group. -/
theorem C9_witness :
    ("G1", [("Y", 1, []), ("X", 1, [])])
      ∈ reorder_tasks [("G1", [("X", (1:Int), ([] : List String)), ("Y", 1, [])])] := by
  have := C9_amended_reversal [("G1", [("X", 1, []), ("Y", 1, [])])]
    ("G1", [("X", 1, []), ("Y", 1, [])]) (by decide) (by decide) (by decide)
  simpa using this

/-! ## Claim C1: the orderer on acyclic groups

The DFS of `topological_sort` is analysed through an invariant on its
`(visited, stack)` state together with a ghost list `P` of in-progress
ancestor calls.  The key facts are that the stack is a reverse
postorder (`GoodStack`: every stacked node precedes its graph
successors) and that, on acyclic graphs, every successor of a node is
already stacked by the time the node itself is pushed. -/

/-- The edge relation of a successor graph: `graphEdge graph a b` holds
when `b` is listed among the successors of `a` (for `buildGraph` this
means `b` depends on `a`). -/
def graphEdge (graph : String → List String) (a b : String) : Prop :=
  b ∈ graph a

/-- Acyclicity of a successor graph: no node reaches itself through a
nonempty chain of edges. -/
def Acyclic (graph : String → List String) : Prop :=
  ∀ n, ¬ Relation.TransGen (graphEdge graph) n n

/-- Reverse-postorder property of the DFS stack: every stacked node
precedes all of its graph successors on the stack. -/
def GoodStack (graph : String → List String) (S : List String) : Prop :=
  ∀ n ∈ S, ∀ y ∈ graph n, y ∈ S ∧ S.indexOf n < S.indexOf y

/-- State invariant of the DFS: `V` is the visited set, `S` the stack
built so far, `P` the ghost chain of in-progress ancestor calls. -/
structure DfsInv (graph : String → List String) (nodes P V S : List String) : Prop where
  vs : ∀ x, x ∈ V ↔ x ∈ S ∨ x ∈ P
  snd : S.Nodup
  good : GoodStack graph S
  sdom : ∀ x ∈ S, x ∈ nodes
  disj : ∀ q ∈ P, q ∉ S

theorem filter_length_le_of_imp {α : Type} (p q : α → Bool)
    (h : ∀ x, q x = true → p x = true) :
    ∀ l : List α, (l.filter q).length ≤ (l.filter p).length
  | [] => Nat.le_refl _
  | x :: rest => by
    have ih := filter_length_le_of_imp p q h rest
    by_cases hq : q x = true
    · simp only [List.filter_cons, if_pos hq, if_pos (h x hq), List.length_cons]
      omega
    · by_cases hp : p x = true
      · simp only [List.filter_cons, if_neg hq, if_pos hp, List.length_cons]
        omega
      · simp only [List.filter_cons, if_neg hq, if_neg hp]
        exact ih

theorem filter_length_lt_of_mem {α : Type} (p q : α → Bool)
    (h : ∀ x, q x = true → p x = true) (a : α) :
    ∀ l : List α, a ∈ l → p a = true → q a = false →
      (l.filter q).length < (l.filter p).length
  | [], ha, _, _ => absurd ha (List.not_mem_nil a)
  | x :: rest, ha, hpa, hqa => by
    rcases List.mem_cons.mp ha with rfl | ha2
    · have hq : ¬ (q a = true) := by simp [hqa]
      simp only [List.filter_cons, if_neg hq, if_pos hpa, List.length_cons]
      have := filter_length_le_of_imp p q h rest
      omega
    · have ih := filter_length_lt_of_mem p q h a rest ha2 hpa hqa
      by_cases hq : q x = true
      · simp only [List.filter_cons, if_pos hq, if_pos (h x hq), List.length_cons]
        omega
      · by_cases hp : p x = true
        · simp only [List.filter_cons, if_neg hq, if_pos hp, List.length_cons]
          omega
        · simp only [List.filter_cons, if_neg hq, if_neg hp]
          exact ih

theorem goodStack_cons (graph : String → List String) (S : List String)
    (node : String) (hnS : node ∉ S) (hgood : GoodStack graph S)
    (hsucc : ∀ y ∈ graph node, y ∈ S) :
    GoodStack graph (node :: S) := by
  intro n hn y hy
  rcases List.mem_cons.mp hn with rfl | hn2
  · have hyS : y ∈ S := hsucc y hy
    have hyne : n ≠ y := fun he => hnS (he ▸ hyS)
    refine ⟨List.mem_cons_of_mem _ hyS, ?_⟩
    rw [List.indexOf_cons_self, List.indexOf_cons_ne S hyne]
    exact Nat.succ_pos _
  · obtain ⟨hyS, hlt⟩ := hgood n hn2 y hy
    have hne1 : node ≠ n := fun he => hnS (he ▸ hn2)
    have hne2 : node ≠ y := fun he => hnS (he ▸ hyS)
    refine ⟨List.mem_cons_of_mem _ hyS, ?_⟩
    rw [List.indexOf_cons_ne S hne1, List.indexOf_cons_ne S hne2]
    omega

/-- Specification of the `for i in graph[node]` loop of the DFS, taking
the fuel-level induction hypothesis `IH` as an argument: processing any
sublist of the successors of `node` preserves the invariant (with
`node` in progress), marks every processed successor visited, and grows
the visited set monotonically. -/
theorem tsc_spec (graph : String → List String) (nodes : List String)
    (hacyc : Acyclic graph)
    (hsub : ∀ a b, b ∈ graph a → b ∈ nodes) (fuel : Nat)
    (IH : ∀ node V S P, node ∈ nodes → node ∉ V →
      DfsInv graph nodes P V S →
      (∀ q ∈ P, Relation.TransGen (graphEdge graph) q node) →
      (nodes.filter (fun x => x ∉ V)).length ≤ fuel →
      ∀ r, topological_sort_util graph fuel node (V, S) = r →
        (∀ x ∈ V, x ∈ r.1) ∧ node ∈ r.2 ∧ DfsInv graph nodes P r.1 r.2)
    (node : String) (P : List String)
    (hP : ∀ q ∈ P, Relation.TransGen (graphEdge graph) q node) :
    ∀ children : List String, (∀ c ∈ children, c ∈ graph node) →
    ∀ V S, DfsInv graph nodes (node :: P) V S →
      (nodes.filter (fun x => x ∉ V)).length ≤ fuel →
      ∀ r, tsChildren (topological_sort_util graph fuel) children (V, S) = r →
        (∀ x ∈ V, x ∈ r.1) ∧ (∀ c ∈ children, c ∈ r.1) ∧
        DfsInv graph nodes (node :: P) r.1 r.2 := by
  intro children
  induction children with
  | nil =>
    intro _ V S hinv _ r hr
    have h0 : (V, S) = r := hr
    subst h0
    exact ⟨fun x hx => hx, fun c hc => absurd hc (List.not_mem_nil c), hinv⟩
  | cons i rest ih =>
    intro hc V S hinv hfuel r hr
    have hr2 : tsChildren (topological_sort_util graph fuel) rest
        (if i ∈ V then (V, S) else topological_sort_util graph fuel i (V, S)) = r := hr
    by_cases hiV : i ∈ V
    · rw [if_pos hiV] at hr2
      obtain ⟨hmono, hcov, hinv2⟩ :=
        ih (fun c hc2 => hc c (List.mem_cons_of_mem i hc2)) V S hinv hfuel r hr2
      refine ⟨hmono, ?_, hinv2⟩
      intro c hc2
      rcases List.mem_cons.mp hc2 with rfl | h2
      · exact hmono c hiV
      · exact hcov c h2
    · rw [if_neg hiV] at hr2
      have higN : i ∈ graph node := hc i (List.mem_cons_self i rest)
      have hiNodes : i ∈ nodes := hsub node i higN
      have hP2 : ∀ q ∈ node :: P, Relation.TransGen (graphEdge graph) q i := by
        intro q hq
        rcases List.mem_cons.mp hq with rfl | hq2
        · exact Relation.TransGen.single higN
        · exact Relation.TransGen.tail (hP q hq2) higN
      set m := topological_sort_util graph fuel i (V, S) with hm
      obtain ⟨hmono1, hiS1, hinv1⟩ :=
        IH i V S (node :: P) hiNodes hiV hinv hP2 hfuel m hm.symm
      have hfuel1 : (nodes.filter (fun x => x ∉ m.1)).length ≤ fuel := by
        refine le_trans (filter_length_le_of_imp _ _ ?_ nodes) hfuel
        intro x hx
        simp only [decide_eq_true_eq] at hx ⊢
        exact fun hxV => hx (hmono1 x hxV)
      obtain ⟨hmono2, hcov2, hinv2⟩ :=
        ih (fun c hc2 => hc c (List.mem_cons_of_mem i hc2)) m.1 m.2 hinv1 hfuel1 r hr2
      refine ⟨fun x hx => hmono2 x (hmono1 x hx), ?_, hinv2⟩
      intro c hc2
      rcases List.mem_cons.mp hc2 with rfl | h2
      · exact hmono2 c ((hinv1.vs c).mpr (Or.inl hiS1))
      · exact hcov2 c h2

/-- Specification of `topological_sort_util` on an acyclic graph: with
enough fuel for the unvisited nodes, a call on an unvisited node of
`nodes` preserves the DFS invariant, pushes the node, and grows the
visited set monotonically. -/
theorem tsu_spec (graph : String → List String) (nodes : List String)
    (hacyc : Acyclic graph)
    (hsub : ∀ a b, b ∈ graph a → b ∈ nodes) :
    ∀ fuel : Nat, ∀ node V S P, node ∈ nodes → node ∉ V →
      DfsInv graph nodes P V S →
      (∀ q ∈ P, Relation.TransGen (graphEdge graph) q node) →
      (nodes.filter (fun x => x ∉ V)).length ≤ fuel →
      ∀ r, topological_sort_util graph fuel node (V, S) = r →
        (∀ x ∈ V, x ∈ r.1) ∧ node ∈ r.2 ∧ DfsInv graph nodes P r.1 r.2 := by
  intro fuel
  induction fuel with
  | zero =>
    intro node V S P hnode hnV hinv hP hfuel r hr
    exfalso
    have hmem : node ∈ nodes.filter (fun x => x ∉ V) :=
      List.mem_filter.mpr ⟨hnode, by simpa using hnV⟩
    have := List.length_pos_of_mem hmem
    omega
  | succ fuel ihf =>
    intro node V S P hnode hnV hinv hP hfuel r hr
    have hnS : node ∉ S := fun h => hnV ((hinv.vs node).mpr (Or.inl h))
    have hnP : node ∉ P := fun h => hacyc node (hP node h)
    have hinv1 : DfsInv graph nodes (node :: P) (node :: V) S := by
      refine ⟨?_, hinv.snd, hinv.good, hinv.sdom, ?_⟩
      · intro x
        have h0 := hinv.vs x
        simp only [List.mem_cons]
        tauto
      · intro q hq
        rcases List.mem_cons.mp hq with rfl | hq2
        · exact hnS
        · exact hinv.disj q hq2
    have hfuel1 : (nodes.filter (fun x => x ∉ (node :: V))).length ≤ fuel := by
      have himp : ∀ x : String, (fun x => decide (x ∉ (node :: V))) x = true →
          (fun x => decide (x ∉ V)) x = true := by
        intro x hx
        simp only [decide_eq_true_eq, List.mem_cons, not_or] at hx ⊢
        exact hx.2
      have hlt := filter_length_lt_of_mem _ _ himp node nodes hnode
        (by simpa using hnV) (by simp)
      omega
    subst hr
    set A := tsChildren (topological_sort_util graph fuel) (graph node) (node :: V, S)
      with hA
    obtain ⟨hmono2, hcov2, hinv2⟩ := tsc_spec graph nodes hacyc hsub fuel ihf node P hP
      (graph node) (fun c hc => hc) (node :: V) S hinv1 hfuel1 A hA.symm
    have hnA2 : node ∉ A.2 := hinv2.disj node (List.mem_cons_self node P)
    have hvs : ∀ x, x ∈ A.1 ↔ x ∈ node :: A.2 ∨ x ∈ P := by
      intro x
      have h0 := hinv2.vs x
      simp only [List.mem_cons] at h0 ⊢
      tauto
    have hsucc : ∀ y ∈ graph node, y ∈ A.2 := by
      intro y hy
      have hyA1 : y ∈ A.1 := hcov2 y hy
      rcases (hinv2.vs y).mp hyA1 with hyS | hyNP
      · exact hyS
      · exfalso
        rcases List.mem_cons.mp hyNP with rfl | hyP
        · exact hacyc y (Relation.TransGen.single hy)
        · exact hacyc y (Relation.TransGen.tail (hP y hyP) hy)
    have hinv3 : DfsInv graph nodes P A.1 (node :: A.2) := by
      refine ⟨hvs, List.nodup_cons.mpr ⟨hnA2, hinv2.snd⟩,
        goodStack_cons graph A.2 node hnA2 hinv2.good hsucc, ?_, ?_⟩
      · intro x hx
        rcases List.mem_cons.mp hx with rfl | hx2
        · exact hnode
        · exact hinv2.sdom x hx2
      · intro q hq hmem
        rcases List.mem_cons.mp hmem with rfl | hmem2
        · exact hnP hq
        · exact hinv2.disj q (List.mem_cons_of_mem node hq) hmem2
    exact ⟨fun x hx => hmono2 x (List.mem_cons_of_mem node hx),
      List.mem_cons_self node A.2, hinv3⟩

/-- Specification of the root loop of `topological_sort`: folding the
DFS over any sublist of `nodes` preserves the invariant (empty ghost
chain) and leaves every processed root visited. -/
theorem ts_fold_spec (graph : String → List String) (nodes : List String)
    (hacyc : Acyclic graph)
    (hsub : ∀ a b, b ∈ graph a → b ∈ nodes) :
    ∀ l : List String, (∀ x ∈ l, x ∈ nodes) →
    ∀ V S, DfsInv graph nodes [] V S →
      ∀ r, l.foldl (fun st node => if node ∈ st.1 then st
          else topological_sort_util graph nodes.length node st) (V, S) = r →
        (∀ x ∈ V, x ∈ r.1) ∧ (∀ x ∈ l, x ∈ r.1) ∧ DfsInv graph nodes [] r.1 r.2
  | [], _, V, S, hinv, r, hr => by
    have h0 : (V, S) = r := hr
    subst h0
    exact ⟨fun x hx => hx, fun x hx => absurd hx (List.not_mem_nil x), hinv⟩
  | x :: rest, hl, V, S, hinv, r, hr => by
    have hr2 : rest.foldl (fun st node => if node ∈ st.1 then st
        else topological_sort_util graph nodes.length node st)
        (if x ∈ V then (V, S) else topological_sort_util graph nodes.length x (V, S))
        = r := hr
    by_cases hxV : x ∈ V
    · rw [if_pos hxV] at hr2
      obtain ⟨h1, h2, h3⟩ := ts_fold_spec graph nodes hacyc hsub rest
        (fun y hy => hl y (List.mem_cons_of_mem x hy)) V S hinv r hr2
      refine ⟨h1, ?_, h3⟩
      intro y hy
      rcases List.mem_cons.mp hy with rfl | hy2
      · exact h1 y hxV
      · exact h2 y hy2
    · rw [if_neg hxV] at hr2
      have hxN : x ∈ nodes := hl x (List.mem_cons_self x rest)
      obtain ⟨hm1, hxS1, hinv1⟩ := tsu_spec graph nodes hacyc hsub nodes.length x V S []
        hxN hxV hinv (fun q hq => absurd hq (List.not_mem_nil q))
        (List.length_filter_le _ _)
        (topological_sort_util graph nodes.length x (V, S)) rfl
      obtain ⟨h1, h2, h3⟩ := ts_fold_spec graph nodes hacyc hsub rest
        (fun y hy => hl y (List.mem_cons_of_mem x hy))
        (topological_sort_util graph nodes.length x (V, S)).1
        (topological_sort_util graph nodes.length x (V, S)).2 hinv1 r hr2
      refine ⟨fun y hy => h1 y (hm1 y hy), ?_, h3⟩
      intro y hy
      rcases List.mem_cons.mp hy with rfl | hy2
      · exact h1 y ((hinv1.vs y).mpr (Or.inl hxS1))
      · exact h2 y hy2

/-- Correctness of `topological_sort` on an acyclic graph whose edges
stay inside `nodes`: the result contains exactly the reachable roots —
in particular all of `nodes` — without duplicates, and every element
precedes all of its graph successors. -/
theorem topological_sort_spec (graph : String → List String) (nodes : List String)
    (hacyc : Acyclic graph)
    (hsub : ∀ a b, b ∈ graph a → b ∈ nodes) :
    (∀ x ∈ nodes, x ∈ topological_sort graph nodes) ∧
    (∀ x ∈ topological_sort graph nodes, x ∈ nodes) ∧
    (topological_sort graph nodes).Nodup ∧
    GoodStack graph (topological_sort graph nodes) := by
  have hinv0 : DfsInv graph nodes [] [] [] := by
    refine ⟨?_, List.nodup_nil, ?_, ?_, ?_⟩
    · intro x; simp
    · intro n hn; exact absurd hn (List.not_mem_nil n)
    · intro x hx; exact absurd hx (List.not_mem_nil x)
    · intro q hq; exact absurd hq (List.not_mem_nil q)
  obtain ⟨h1, h2, h3⟩ := ts_fold_spec graph nodes hacyc hsub nodes
    (fun x hx => hx) [] [] hinv0
    (nodes.foldl (fun st node => if node ∈ st.1 then st
      else topological_sort_util graph nodes.length node st) ([], [])) rfl
  refine ⟨?_, h3.sdom, h3.snd, h3.good⟩
  intro x hx
  exact ((h3.vs x).mp (h2 x hx)).resolve_right (fun h => absurd h (List.not_mem_nil x))

theorem stableInsert_pairwise (le : TaskE → TaskE → Bool)
    (htot : ∀ a b, le a b = true ∨ le b a = true)
    (htrans : ∀ a b c, le a b = true → le b c = true → le a c = true)
    (x : TaskE) :
    ∀ l : List TaskE, l.Pairwise (fun a b => le a b = true) →
      (stableInsert le x l).Pairwise (fun a b => le a b = true)
  | [], _ => List.pairwise_cons.mpr
      ⟨fun z hz => absurd hz (List.not_mem_nil z), List.Pairwise.nil⟩
  | y :: rest, hl => by
    obtain ⟨hy, hrest⟩ := List.pairwise_cons.mp hl
    unfold stableInsert
    by_cases hxy : le y x = true
    · rw [if_pos hxy]
      refine List.pairwise_cons.mpr
        ⟨?_, stableInsert_pairwise le htot htrans x rest hrest⟩
      intro z hz
      have hz2 : z ∈ x :: rest := (stableInsert_perm le x rest).mem_iff.mp hz
      rcases List.mem_cons.mp hz2 with rfl | hz3
      · exact hxy
      · exact hy z hz3
    · rw [if_neg hxy]
      have hxyle : le x y = true := (htot x y).resolve_right hxy
      refine List.pairwise_cons.mpr ⟨?_, hl⟩
      intro z hz
      rcases List.mem_cons.mp hz with rfl | hz2
      · exact hxyle
      · exact htrans x y z hxyle (hy z hz2)

theorem sortedByKey_pairwise (le : TaskE → TaskE → Bool)
    (htot : ∀ a b, le a b = true ∨ le b a = true)
    (htrans : ∀ a b c, le a b = true → le b c = true → le a c = true) :
    ∀ l : List TaskE, (sortedByKey le l).Pairwise (fun a b => le a b = true)
  | [] => List.Pairwise.nil
  | x :: rest => by
    unfold sortedByKey
    exact stableInsert_pairwise le htot htrans x _
      (sortedByKey_pairwise le htot htrans rest)

theorem indexOf_map_fst {l : List TaskE} (hnd : (l.map (fun t => t.1)).Nodup)
    (i : Fin l.length) : (l.map (fun t => t.1)).indexOf (l.get i).1 = i.1 := by
  have hlen : i.1 < (l.map (fun t => t.1)).length := by
    rw [List.length_map]; exact i.2
  have hget : (l.map (fun t => t.1)).get ⟨i.1, hlen⟩ = (l.get i).1 := by
    simp
  rw [← hget, List.get_indexOf hnd ⟨i.1, hlen⟩]

/-- Sorting tasks by their index in a reference list `ts` places every
task after all of the tasks named by its dependencies, provided the
reference list ranks every dependency strictly earlier. -/
theorem depIndexOK_sortedByKey (tasks : List TaskE) (ts : List String)
    (hnd : (tasks.map (fun t => t.1)).Nodup)
    (hkey : ∀ t ∈ tasks, ∀ d ∈ t.2.2, d ∈ tasks.map (fun u => u.1) →
      ts.indexOf d < ts.indexOf t.1) :
    depIndexOK (sortedByKey (fun a b => decide (ts.indexOf a.1 ≤ ts.indexOf b.1)) tasks) := by
  have htot : ∀ a b : TaskE, decide (ts.indexOf a.1 ≤ ts.indexOf b.1) = true ∨
      decide (ts.indexOf b.1 ≤ ts.indexOf a.1) = true := by
    intro a b
    rcases Nat.le_total (ts.indexOf a.1) (ts.indexOf b.1) with h | h
    · exact Or.inl (by simpa using h)
    · exact Or.inr (by simpa using h)
  have htrans : ∀ a b c : TaskE, decide (ts.indexOf a.1 ≤ ts.indexOf b.1) = true →
      decide (ts.indexOf b.1 ≤ ts.indexOf c.1) = true →
      decide (ts.indexOf a.1 ≤ ts.indexOf c.1) = true := by
    intro a b c h1 h2
    simp only [decide_eq_true_eq] at h1 h2 ⊢
    omega
  set T := sortedByKey (fun a b => decide (ts.indexOf a.1 ≤ ts.indexOf b.1)) tasks with hT
  have hpw : T.Pairwise (fun a b => decide (ts.indexOf a.1 ≤ ts.indexOf b.1) = true) := by
    rw [hT]; exact sortedByKey_pairwise _ htot htrans tasks
  have hperm : T.Perm tasks := by
    rw [hT]; exact sortedByKey_perm _ tasks
  have hnd2 : (T.map (fun t => t.1)).Nodup := ((hperm.map _).nodup_iff).mpr hnd
  intro j d hd hdm
  obtain ⟨δ, hδmem, hδ1⟩ := List.mem_map.mp hdm
  obtain ⟨i, hi⟩ := List.mem_iff_get.mp hδmem
  have htj : T.get j ∈ tasks := hperm.mem_iff.mp (List.get_mem T j.1 j.2)
  have hdm2 : d ∈ tasks.map (fun u => u.1) := (hperm.map (fun u => u.1)).mem_iff.mp hdm
  have hlt : ts.indexOf d < ts.indexOf (T.get j).1 := hkey (T.get j) htj d hd hdm2
  have hij : i.1 < j.1 := by
    rcases Nat.lt_trichotomy i.1 j.1 with h | h | h
    · exact h
    · exfalso
      have heq : T.get i = T.get j := by
        congr 1
        exact Fin.ext h
      have hde : d = (T.get j).1 := by rw [← hδ1, ← hi, heq]
      rw [← hde] at hlt
      exact lt_irrefl _ hlt
    · exfalso
      have hle := List.pairwise_iff_get.mp hpw j i (Fin.lt_def.mpr h)
      have hle2 : ts.indexOf (T.get j).1 ≤ ts.indexOf (T.get i).1 := by simpa using hle
      rw [hi, hδ1] at hle2
      omega
  have h6 := indexOf_map_fst hnd2 i
  rw [hi, hδ1] at h6
  rw [h6]
  exact hij

/-- One group of `reorder_tasks`: with distinct task names and an
acyclic dependency graph the reordered group is a valid topological
order. -/
theorem reorder_group_depIndexOK (g : GroupE)
    (hnd : (g.2.map (fun t => t.1)).Nodup)
    (hacyc : Acyclic (buildGraph g.2)) :
    depIndexOK (reorder_group g).2 := by
  have hsub : ∀ a b, b ∈ buildGraph g.2 a → b ∈ g.2.map (fun t => t.1) := by
    intro a b hb
    obtain ⟨t, ht, rfl⟩ := List.mem_map.mp hb
    exact List.mem_map_of_mem _ (List.mem_of_mem_filter ht)
  obtain ⟨hcomp, hdom, hnd2, hgood⟩ :=
    topological_sort_spec (buildGraph g.2) (g.2.map (fun t => t.1)) hacyc hsub
  have hre : (reorder_group g).2 = sortedByKey (fun a b => decide
      ((topological_sort (buildGraph g.2) (g.2.map (fun t => t.1))).indexOf a.1 ≤
       (topological_sort (buildGraph g.2) (g.2.map (fun t => t.1))).indexOf b.1)) g.2 := rfl
  rw [hre]
  apply depIndexOK_sortedByKey g.2 _ hnd
  intro t ht d hd hdm
  have hedge : t.1 ∈ buildGraph g.2 d := by
    unfold buildGraph
    exact List.mem_map_of_mem _ (List.mem_filter.mpr ⟨ht, by simpa using hd⟩)
  have hdts : d ∈ topological_sort (buildGraph g.2) (g.2.map (fun t => t.1)) :=
    hcomp d hdm
  exact (hgood d hdts t.1 hedge).2

/-- **C1.** For every pipeline in which each group has pairwise
distinct task names and an acyclic dependency graph, `reorder_tasks`
produces, group by group, a valid topological order of exactly that
group's tasks: the output group keeps its name, its task sequence is a
permutation of the input tasks, and every dependency of a task that
names another task of the same group appears at a strictly earlier
index (`depIndexOK`; dependencies naming no task of the group impose no
constraint). -/
theorem C1_topological_order (p : PipelineE)
    (h : ∀ g ∈ p, (g.2.map (fun t => t.1)).Nodup ∧ Acyclic (buildGraph g.2)) :
    List.Forall₂ (fun g g' => g.1 = g'.1 ∧ (g'.2).Perm g.2 ∧ depIndexOK g'.2)
      p (reorder_tasks p) := by
  induction p with
  | nil => exact List.Forall₂.nil
  | cons g rest ih =>
    refine List.Forall₂.cons
      ⟨rfl, reorder_group_perm g,
        reorder_group_depIndexOK g (h g (List.mem_cons_self g rest)).1
          (h g (List.mem_cons_self g rest)).2⟩
      (ih (fun g2 hg2 => h g2 (List.mem_cons_of_mem g hg2)))

/-- C1 witness: the two-task chain `A`, `B` (with `B` depending on `A`)
has unique names and an acyclic graph, so the theorem applies: the
orderer returns a valid topological order of the group. -/
theorem C1_witness :
    List.Forall₂ (fun g g' => g.1 = g'.1 ∧ (g'.2).Perm g.2 ∧ depIndexOK g'.2)
      [("G1", [("A", (1 : Int), ([] : List String)), ("B", (1 : Int), ["A"])])]
      (reorder_tasks
        [("G1", [("A", (1 : Int), ([] : List String)), ("B", (1 : Int), ["A"])])]) := by
  have hedge : ∀ a b : String,
      b ∈ buildGraph [("A", (1 : Int), ([] : List String)), ("B", (1 : Int), ["A"])] a →
      a = "A" ∧ b = "B" := by
    intro a b hb
    by_cases ha : a = "A"
    · subst ha
      have hg : buildGraph
          [("A", (1 : Int), ([] : List String)), ("B", (1 : Int), ["A"])] "A"
          = ["B"] := by decide
      rw [hg] at hb
      have hb2 : b = "B" := by simpa using hb
      exact ⟨rfl, hb2⟩
    · exfalso
      have hg : buildGraph
          [("A", (1 : Int), ([] : List String)), ("B", (1 : Int), ["A"])] a
          = [] := by
        simp [buildGraph, List.filter_cons, List.filter_nil, ha]
      rw [hg] at hb
      exact absurd hb (List.not_mem_nil b)
  have hacyc : Acyclic (buildGraph
      [("A", (1 : Int), ([] : List String)), ("B", (1 : Int), ["A"])]) := by
    intro n hT
    have hAB : ∀ x y : String, Relation.TransGen (graphEdge (buildGraph
        [("A", (1 : Int), ([] : List String)), ("B", (1 : Int), ["A"])])) x y →
        x = "A" ∧ y = "B" := by
      intro x y hxy
      induction hxy with
      | single h => exact hedge _ _ h
      | tail hT2 hE ih => exact ⟨ih.1, (hedge _ _ hE).2⟩
    obtain ⟨h1, h2⟩ := hAB n n hT
    rw [h1] at h2
    exact absurd h2 (by decide)
  apply C1_topological_order
  intro g hg
  have hg2 : g = ("G1", [("A", (1 : Int), ([] : List String)), ("B", (1 : Int), ["A"])]) := by
    simpa using hg
  subst hg2
  exact ⟨by decide, hacyc⟩

/-! ## Basic step lemmas for the simulator -/

theorem scheduleTask_next (ms : MinSt) (name : String) :
    ((scheduleTask ms name).1).next = ms.next ++ [name] := by
  simp only [scheduleTask]
  split <;> rfl

theorem familyPass_next (cpu_count : Nat) :
    ∀ (l : List TaskE) (ms : MinSt), ∃ extra,
      (familyPass cpu_count l ms).next = ms.next ++ extra ∧
      ∀ n ∈ extra, n ∈ l.map (fun t => t.1)
  | [], ms => ⟨[], by simp [familyPass]⟩
  | t :: rest, ms => by
    by_cases hc : t.1 ∈ ms.completed
    · obtain ⟨extra, h1, h2⟩ := familyPass_next cpu_count rest ms
      refine ⟨extra, ?_, fun n hn => by simp [h2 n hn]⟩
      simpa only [familyPass, if_pos hc] using h1
    · by_cases hel : eligible ms t.2.2 = true
      · have hnx := scheduleTask_next ms t.1
        by_cases hfull : ((scheduleTask ms t.1).1).next.length = cpu_count
        · refine ⟨[t.1], ?_, by simp⟩
          simp only [familyPass, if_neg hc, if_pos hel, if_pos hfull]
          exact hnx
        · obtain ⟨extra, h1, h2⟩ :=
            familyPass_next cpu_count rest (scheduleTask ms t.1).1
          refine ⟨t.1 :: extra, ?_, ?_⟩
          · simp only [familyPass, if_neg hc, if_pos hel, if_neg hfull]
            rw [h1, hnx]; simp
          · intro n hn
            rcases List.mem_cons.mp hn with h | h
            · simp [h]
            · simp [h2 n h]
      · obtain ⟨extra, h1, h2⟩ := familyPass_next cpu_count rest ms
        refine ⟨extra, ?_, fun n hn => by simp [h2 n hn]⟩
        simpa only [familyPass, if_neg hc, if_neg hel] using h1

theorem poolPass_cases (cpu_count : Nat) (ms : MinSt) (pool : List TaskE) :
    ((poolPass cpu_count ms pool).1.next = ms.next) ∨
    (∃ t rest, pool = t :: rest ∧ ms.next.length < cpu_count ∧
      (poolPass cpu_count ms pool).1.next = ms.next ++ [t.1]) := by
  cases pool with
  | nil =>
    left
    simp only [poolPass]
    split <;> rfl
  | cons t rest =>
    by_cases hlt : ms.next.length < cpu_count
    · by_cases hel : eligible ms t.2.2 = true
      · right
        refine ⟨t, rest, rfl, hlt, ?_⟩
        simp only [poolPass, if_pos hlt, if_pos hel]
        exact scheduleTask_next ms t.1
      · left
        simp only [poolPass, if_pos hlt, if_neg hel]
    · left
      simp only [poolPass, if_neg hlt]

/-- C6: in every simulated time unit, the scheduled tasks decompose as
tasks of the active group followed by at most one task from the
`no_group` pool; the pool task, when present, is exactly the pool's
head and is accepted only when the active group filled strictly fewer
than `cpu_count` slots.  In particular no second pool task is ever
tried, even if capacity remains. -/
theorem C6_no_group_single_slot (families : List GroupE) (cpu_count minute : Nat)
    (st : SimSt) :
    ∃ fam poolPart,
      (simStep families cpu_count minute st).2.2.1 = fam ++ poolPart ∧
      poolPart.length ≤ 1 ∧
      (∀ n ∈ fam, ∃ f, families[st.familyIndex]? = some f ∧
        n ∈ f.2.map (fun t => t.1)) ∧
      (poolPart ≠ [] →
        fam.length < cpu_count ∧
        ∃ t rest, st.pool = t :: rest ∧ poolPart = [t.1]) := by
  cases hfam : families[st.familyIndex]? with
  | none =>
    have hstep : (simStep families cpu_count minute st).2.2.1 =
        (poolPass cpu_count
          { next := [], current := [], remaining := st.remaining,
            completed := st.completed } st.pool).1.next := by
      simp [simStep, hfam]
    rcases poolPass_cases cpu_count
      { next := [], current := [], remaining := st.remaining,
        completed := st.completed } st.pool with h | ⟨t, rest, hpool, hlt, h⟩
    · exact ⟨[], [], by simp [hstep, h], by simp, by simp, by simp⟩
    · refine ⟨[], [t.1], by simp [hstep, h], by simp, by simp, ?_⟩
      exact fun _ => ⟨by simpa using hlt, t, rest, hpool, rfl⟩
  | some f =>
    obtain ⟨extra, hnext, hmem⟩ := familyPass_next cpu_count f.2
      { next := [], current := [], remaining := st.remaining,
        completed := st.completed }
    have hstep : (simStep families cpu_count minute st).2.2.1 =
        (poolPass cpu_count
          (familyPass cpu_count f.2
            { next := [], current := [], remaining := st.remaining,
              completed := st.completed }) st.pool).1.next := by
      simp [simStep, hfam]
    rcases poolPass_cases cpu_count
      (familyPass cpu_count f.2
        { next := [], current := [], remaining := st.remaining,
          completed := st.completed }) st.pool with h | ⟨t, rest, hpool, hlt, h⟩
    · refine ⟨extra, [], ?_, by simp, ?_, by simp⟩
      · rw [hstep, h, hnext]; simp
      · exact fun n hn => ⟨f, rfl, hmem n hn⟩
    · refine ⟨extra, [t.1], ?_, by simp, ?_, ?_⟩
      · rw [hstep, h, hnext]; simp
      · exact fun n hn => ⟨f, rfl, hmem n hn⟩
      · refine fun _ => ⟨?_, t, rest, hpool, rfl⟩
        have : (familyPass cpu_count f.2
          { next := [], current := [], remaining := st.remaining,
            completed := st.completed }).next.length < cpu_count := hlt
        rw [hnext] at this
        simpa using this

/-! ## Remaining-map lemmas -/

theorem find?_map_update (k : String) (v : Int) :
    ∀ (m : RemainingMap) (q : String × Int),
      m.find? (fun p => decide (p.1 = k)) = some q →
      (m.map (fun p => if p.1 = k then (p.1, v) else p)).find?
        (fun p => decide (p.1 = k)) = some (k, v)
  | [], q => by simp
  | p :: rest, q => by
    intro h
    by_cases hk : p.1 = k
    · simp only [List.map_cons, if_pos hk, List.find?_cons,
        decide_eq_true_eq, hk]
      simp [hk]
    · simp only [List.find?_cons] at h
      rw [decide_eq_false hk] at h
      simp only [List.map_cons, if_neg hk, List.find?_cons]
      rw [decide_eq_false hk]
      exact find?_map_update k v rest q h

theorem rmSet_find_self (m : RemainingMap) (k : String) (v : Int) :
    (rmSet m k v).find? (fun p => decide (p.1 = k)) = some (k, v) := by
  unfold rmSet
  split
  · next h =>
    obtain ⟨q, hq⟩ := Option.isSome_iff_exists.mp h
    exact find?_map_update k v m q hq
  · next h =>
    rw [List.find?_append]
    rw [Option.not_isSome_iff_eq_none.mp h]
    simp

theorem find?_map_update_other (k k' : String) (v : Int) (hne : k' ≠ k) :
    ∀ m : RemainingMap,
      (m.map (fun p => if p.1 = k then (p.1, v) else p)).find?
          (fun p => decide (p.1 = k')) =
        m.find? (fun p => decide (p.1 = k'))
  | [] => by simp
  | p :: rest => by
    by_cases hk' : p.1 = k'
    · have hpk : ¬ p.1 = k := by rw [hk']; exact hne
      simp only [List.map_cons, if_neg hpk, List.find?_cons]
      rw [decide_eq_true hk']
    · by_cases hpk : p.1 = k
      · simp only [List.map_cons, if_pos hpk, List.find?_cons]
        have hk'2 : ¬ ((p.1, v).1 = k') := hk'
        rw [decide_eq_false hk'2]
        exact find?_map_update_other k k' v hne rest
      · simp only [List.map_cons, if_neg hpk, List.find?_cons]
        rw [decide_eq_false hk']
        exact find?_map_update_other k k' v hne rest

theorem rmSet_find_other (m : RemainingMap) (k k' : String) (v : Int)
    (hne : k' ≠ k) :
    (rmSet m k v).find? (fun p => decide (p.1 = k')) =
      m.find? (fun p => decide (p.1 = k')) := by
  unfold rmSet
  split
  · exact find?_map_update_other k k' v hne m
  · rw [List.find?_append]
    cases hf : m.find? (fun p => decide (p.1 = k')) with
    | some q => simp [hf]
    | none => simp [Ne.symm hne]

theorem rmDel_find_self (m : RemainingMap) (k : String) :
    (rmDel m k).find? (fun p => decide (p.1 = k)) = none := by
  unfold rmDel
  rw [List.find?_eq_none]
  intro p hp
  have := List.of_mem_filter hp
  simpa using this

theorem rmDel_find_other (m : RemainingMap) (k k' : String) (hne : k' ≠ k) :
    (rmDel m k).find? (fun p => decide (p.1 = k')) =
      m.find? (fun p => decide (p.1 = k')) := by
  unfold rmDel
  induction m with
  | nil => simp
  | cons p rest ih =>
    by_cases hk' : p.1 = k'
    · have hpk : ¬ p.1 = k := by rw [hk']; exact hne
      simp only [List.filter_cons, decide_eq_true_eq]
      rw [if_pos (by simpa using hpk)]
      simp only [List.find?_cons]
      rw [decide_eq_true hk']
    · by_cases hpk : p.1 = k
      · simp only [List.filter_cons]
        rw [if_neg (by simpa using hpk)]
        simp only [List.find?_cons]
        rw [decide_eq_false hk']
        exact ih
      · simp only [List.filter_cons]
        rw [if_pos (by simpa using hpk)]
        simp only [List.find?_cons]
        rw [decide_eq_false hk']
        exact ih

theorem rmGet_of_find (m : RemainingMap) (k : String) (v : Int)
    (h : m.find? (fun p => decide (p.1 = k)) = some (k, v)) :
    rmGet m k = v := by
  unfold rmGet
  rw [h]
  rfl

theorem rmSet_keys (m : RemainingMap) (k : String) (v : Int) :
    ∀ p ∈ rmSet m k v, p.1 = k ∨ p.1 ∈ m.map (fun q => q.1) := by
  unfold rmSet
  split
  · intro p hp
    obtain ⟨q, hq, hqe⟩ := List.mem_map.mp hp
    by_cases hk : q.1 = k
    · left; rw [← hqe, if_pos hk]; exact hk
    · right; rw [← hqe, if_neg hk]
      exact List.mem_map_of_mem _ hq
  · intro p hp
    rcases List.mem_append.mp hp with h | h
    · exact Or.inr (List.mem_map_of_mem _ h)
    · left
      have := List.mem_singleton.mp h
      rw [this]

theorem rmDel_keys (m : RemainingMap) (k : String) :
    ∀ p ∈ rmDel m k, p.1 ∈ m.map (fun q => q.1) := by
  unfold rmDel
  intro p hp
  exact List.mem_map_of_mem _ (List.mem_of_mem_filter hp)

theorem find?_isSome_of_mem_keys (m : RemainingMap) (k : String)
    (h : k ∈ m.map (fun q => q.1)) :
    (m.find? (fun p => decide (p.1 = k))).isSome := by
  obtain ⟨q, hq, hqe⟩ := List.mem_map.mp h
  rw [List.find?_isSome]
  exact ⟨q, hq, by simp [hqe]⟩

/-! ## Simulation invariants -/

/-- Number of trace entries in which task `n` was scheduled. -/
def schedCnt (tr : List Entry) (n : String) : Nat :=
  tr.countP (fun e => n ∈ e.2.1)

/-- Scheduled count of `n` including the current (not yet appended)
minute, whose scheduled set is `next`. -/
def midCnt (past : List Entry) (next : List String) (n : String) : Int :=
  (schedCnt past n : Int) + (if n ∈ next then 1 else 0)

/-- The task list of one run of the simulator loop: family tasks in
group order followed by the pool. -/
def loopTasks (families : List GroupE) (pool0 : List TaskE) : List TaskE :=
  families.flatMap (fun g => g.2) ++ pool0

/-- Mid-minute invariant of the scheduling accumulator `MinSt`,
relative to the global task list `A` and the past trace. -/
structure MidInv (A : List TaskE) (past : List Entry) (ms : MinSt) : Prop where
  next_sched : ∀ n ∈ ms.next, ∃ τ ∈ A, τ.1 = n ∧
    (schedCnt past n : Int) < τ.2.1 ∧
    ∀ d ∈ τ.2.2, ∃ δ ∈ A, δ.1 = d ∧ (schedCnt past d : Int) = δ.2.1
  next_nodup : ms.next.Nodup
  current_iff : ∀ n, n ∈ ms.current ↔ n ∈ ms.next
  cnt_le : ∀ τ ∈ A, midCnt past ms.next τ.1 ≤ τ.2.1
  completed_iff : ∀ τ ∈ A, (τ.1 ∈ ms.completed ↔ midCnt past ms.next τ.1 = τ.2.1)
  completed_names : ∀ n ∈ ms.completed, n ∈ A.map (fun t => t.1)
  rem_some : ∀ τ ∈ A, midCnt past ms.next τ.1 < τ.2.1 →
    ms.remaining.find? (fun p => decide (p.1 = τ.1)) =
      some (τ.1, τ.2.1 - midCnt past ms.next τ.1)
  rem_none : ∀ τ ∈ A, midCnt past ms.next τ.1 = τ.2.1 →
    ms.remaining.find? (fun p => decide (p.1 = τ.1)) = none
  rem_names : ∀ p ∈ ms.remaining, p.1 ∈ A.map (fun t => t.1)

/-- End-of-minute (between-minutes) invariant of the simulator state. -/
structure SimInv (families : List GroupE) (pool0 : List TaskE)
    (past : List Entry) (st : SimSt) : Prop where
  cnt_le : ∀ τ ∈ loopTasks families pool0, (schedCnt past τ.1 : Int) ≤ τ.2.1
  completed_iff : ∀ τ ∈ loopTasks families pool0,
    (τ.1 ∈ st.completed ↔ (schedCnt past τ.1 : Int) = τ.2.1)
  completed_names : ∀ n ∈ st.completed,
    n ∈ (loopTasks families pool0).map (fun t => t.1)
  rem_some : ∀ τ ∈ loopTasks families pool0,
    (schedCnt past τ.1 : Int) < τ.2.1 →
    st.remaining.find? (fun p => decide (p.1 = τ.1)) =
      some (τ.1, τ.2.1 - schedCnt past τ.1)
  rem_none : ∀ τ ∈ loopTasks families pool0,
    (schedCnt past τ.1 : Int) = τ.2.1 →
    st.remaining.find? (fun p => decide (p.1 = τ.1)) = none
  rem_names : ∀ p ∈ st.remaining,
    p.1 ∈ (loopTasks families pool0).map (fun t => t.1)
  pool_suffix : ∃ k, st.pool = pool0.drop k
  pool_incomplete : ∀ t ∈ st.pool, (schedCnt past t.1 : Int) < t.2.1
  fidx_le : st.familyIndex ≤ families.length
  earlier_complete : ∀ i, i < st.familyIndex → ∀ h2 : i < families.length,
    ∀ t ∈ (families.get ⟨i, h2⟩).2, t.1 ∈ st.completed
  minutes : ∀ i : Fin past.length, (past.get i).1 = i.1 + 1

/-- At the start of a minute the accumulator satisfies the mid-minute
invariant. -/
theorem midInv_init (families : List GroupE) (pool0 : List TaskE)
    (past : List Entry) (st : SimSt)
    (h : SimInv families pool0 past st) :
    MidInv (loopTasks families pool0) past
      { next := [], current := [], remaining := st.remaining,
        completed := st.completed } := by
  constructor
  · intro n hn; simp at hn
  · exact List.nodup_nil
  · intro n; simp
  · intro τ hτ; simpa [midCnt] using h.cnt_le τ hτ
  · intro τ hτ; simpa [midCnt] using h.completed_iff τ hτ
  · exact h.completed_names
  · intro τ hτ hlt
    simp only [midCnt, List.not_mem_nil, if_neg] at hlt ⊢
    simpa using h.rem_some τ hτ (by simpa using hlt)
  · intro τ hτ heq
    simp only [midCnt, List.not_mem_nil, if_neg] at heq ⊢
    exact h.rem_none τ hτ (by simpa using heq)
  · exact h.rem_names

/-- Eligibility at mid-minute means: every dependency is a task of the
pipeline whose scheduled count at the start of the minute already equals
its duration — i.e. it finished in a strictly earlier minute. -/
theorem eligible_spec (A : List TaskE) (past : List Entry) (ms : MinSt)
    (hmid : MidInv A past ms) (deps : List String)
    (hel : eligible ms deps = true) :
    ∀ d ∈ deps, ∃ δ ∈ A, δ.1 = d ∧ (schedCnt past d : Int) = δ.2.1 := by
  intro d hd
  unfold eligible at hel
  rw [Bool.and_eq_true] at hel
  have hcomp : d ∈ ms.completed := by
    have := List.all_eq_true.mp hel.1 d hd
    simpa using this
  have hcur : ¬ d ∈ ms.current := by
    have := List.all_eq_true.mp hel.2 d hd
    simpa using this
  have hnext : ¬ d ∈ ms.next := fun hc => hcur ((hmid.current_iff d).mpr hc)
  obtain ⟨δ0, hδ0, hδ0e⟩ := List.mem_map.mp (hmid.completed_names d hcomp)
  refine ⟨δ0, hδ0, hδ0e, ?_⟩
  have := (hmid.completed_iff δ0 hδ0).mp (by rw [hδ0e]; exact hcomp)
  rw [hδ0e] at this
  simpa [midCnt, if_neg hnext] using this

theorem task_eq_of_name_eq {A : List TaskE}
    (hA : (A.map (fun t => t.1)).Nodup) {τ τ' : TaskE}
    (h1 : τ ∈ A) (h2 : τ' ∈ A) (he : τ.1 = τ'.1) : τ = τ' :=
  List.inj_on_of_nodup_map hA h1 h2 he

theorem setInsert_mem (s : List String) (x n : String) :
    n ∈ setInsert s x ↔ n ∈ s ∨ n = x := by
  unfold setInsert
  split
  · next h =>
    constructor
    · exact Or.inl
    · rintro (h1 | rfl)
      · exact h1
      · exact h
  · rw [List.mem_cons]
    tauto

theorem scheduleTask_eq (ms : MinSt) (n : String) :
    scheduleTask ms n =
      if rmGet ms.remaining n - 1 = 0 then
        ({ next := ms.next ++ [n], current := setInsert ms.current n,
           remaining := rmDel (rmSet ms.remaining n (rmGet ms.remaining n - 1)) n,
           completed := setInsert ms.completed n }, true)
      else
        ({ next := ms.next ++ [n], current := setInsert ms.current n,
           remaining := rmSet ms.remaining n (rmGet ms.remaining n - 1),
           completed := ms.completed }, false) := by
  simp only [scheduleTask]

theorem scheduleTask_midInv_pos (A : List TaskE) (past : List Entry)
    (ms : MinSt) (τ : TaskE) (hA : (A.map (fun t => t.1)).Nodup) (hτ : τ ∈ A)
    (hnotin : τ.1 ∉ ms.next)
    (hincomp : (schedCnt past τ.1 : Int) < τ.2.1)
    (hdeps : ∀ d ∈ τ.2.2, ∃ δ ∈ A, δ.1 = d ∧ (schedCnt past d : Int) = δ.2.1)
    (hmid : MidInv A past ms)
    (hr0 : τ.2.1 - (schedCnt past τ.1 : Int) - 1 = 0) :
    MidInv A past
      { next := ms.next ++ [τ.1], current := setInsert ms.current τ.1,
        remaining := rmDel
          (rmSet ms.remaining τ.1 (τ.2.1 - (schedCnt past τ.1 : Int) - 1)) τ.1,
        completed := setInsert ms.completed τ.1 } := by
  have hτnc : τ.1 ∉ ms.completed := by
    intro hc
    have := (hmid.completed_iff τ hτ).mp hc
    simp [midCnt, if_neg hnotin] at this
    omega
  have hkey : ∀ n, n ∈ ms.next ++ [τ.1] ↔ n ∈ ms.next ∨ n = τ.1 := by
    intro n; simp
  have hmc : ∀ τ' ∈ A, τ' ≠ τ →
      midCnt past (ms.next ++ [τ.1]) τ'.1 = midCnt past ms.next τ'.1 := by
    intro τ' hτ' hne
    have hname : τ'.1 ≠ τ.1 := fun he =>
      hne (task_eq_of_name_eq hA hτ' hτ he)
    simp [midCnt, hkey, hname]
  have hmcτ : midCnt past (ms.next ++ [τ.1]) τ.1 =
      (schedCnt past τ.1 : Int) + 1 := by
    simp [midCnt, hkey]
  constructor
  · intro n hn
    rcases (hkey n).mp hn with h | h
    · exact hmid.next_sched n h
    · exact h ▸ ⟨τ, hτ, rfl, hincomp, hdeps⟩
  · rw [List.nodup_append]
    exact ⟨hmid.next_nodup, List.nodup_singleton _,
      fun a ha hb => hnotin ((List.mem_singleton.mp hb) ▸ ha)⟩
  · intro n
    rw [setInsert_mem, hkey, hmid.current_iff n]
  · intro τ' hτ'
    by_cases hne : τ' = τ
    · subst hne; rw [hmcτ]; omega
    · rw [hmc τ' hτ' hne]; exact hmid.cnt_le τ' hτ'
  · intro τ' hτ'
    by_cases hne : τ' = τ
    · subst hne
      rw [setInsert_mem, hmcτ]
      constructor
      · intro _; omega
      · intro _; exact Or.inr rfl
    · have hname : τ'.1 ≠ τ.1 := fun he =>
        hne (task_eq_of_name_eq hA hτ' hτ he)
      rw [setInsert_mem, hmc τ' hτ' hne]
      constructor
      · rintro (h | h)
        · exact (hmid.completed_iff τ' hτ').mp h
        · exact absurd h hname
      · intro h
        exact Or.inl ((hmid.completed_iff τ' hτ').mpr h)
  · intro n hn
    rcases (setInsert_mem _ _ _).mp hn with h | h
    · exact hmid.completed_names n h
    · exact h ▸ List.mem_map_of_mem _ hτ
  · intro τ' hτ' hlt
    by_cases hne : τ' = τ
    · subst hne; rw [hmcτ] at hlt; omega
    · have hname : τ'.1 ≠ τ.1 := fun he =>
        hne (task_eq_of_name_eq hA hτ' hτ he)
      rw [hmc τ' hτ' hne] at hlt ⊢
      rw [rmDel_find_other _ _ _ hname, rmSet_find_other _ _ _ _ hname]
      have := hmid.rem_some τ' hτ' hlt
      simpa [midCnt] using this
  · intro τ' hτ' heq
    by_cases hne : τ' = τ
    · subst hne
      exact rmDel_find_self _ _
    · have hname : τ'.1 ≠ τ.1 := fun he =>
        hne (task_eq_of_name_eq hA hτ' hτ he)
      rw [hmc τ' hτ' hne] at heq
      rw [rmDel_find_other _ _ _ hname, rmSet_find_other _ _ _ _ hname]
      exact hmid.rem_none τ' hτ' heq
  · intro p hp
    have h1 := rmDel_keys _ _ p hp
    obtain ⟨q, hq, hqe⟩ := List.mem_map.mp h1
    rcases rmSet_keys _ _ _ q hq with h | h
    · rw [← hqe, h]; exact List.mem_map_of_mem _ hτ
    · rw [← hqe]
      obtain ⟨q', hq', hq'e⟩ := List.mem_map.mp h
      rw [← hq'e]
      exact hmid.rem_names q' hq'

theorem scheduleTask_midInv_neg (A : List TaskE) (past : List Entry)
    (ms : MinSt) (τ : TaskE) (hA : (A.map (fun t => t.1)).Nodup) (hτ : τ ∈ A)
    (hnotin : τ.1 ∉ ms.next)
    (hincomp : (schedCnt past τ.1 : Int) < τ.2.1)
    (hdeps : ∀ d ∈ τ.2.2, ∃ δ ∈ A, δ.1 = d ∧ (schedCnt past d : Int) = δ.2.1)
    (hmid : MidInv A past ms)
    (hr0 : ¬ τ.2.1 - (schedCnt past τ.1 : Int) - 1 = 0) :
    MidInv A past
      { next := ms.next ++ [τ.1], current := setInsert ms.current τ.1,
        remaining := rmSet ms.remaining τ.1
          (τ.2.1 - (schedCnt past τ.1 : Int) - 1),
        completed := ms.completed } := by
  have hτnc : τ.1 ∉ ms.completed := by
    intro hc
    have := (hmid.completed_iff τ hτ).mp hc
    simp [midCnt, if_neg hnotin] at this
    omega
  have hkey : ∀ n, n ∈ ms.next ++ [τ.1] ↔ n ∈ ms.next ∨ n = τ.1 := by
    intro n; simp
  have hmc : ∀ τ' ∈ A, τ' ≠ τ →
      midCnt past (ms.next ++ [τ.1]) τ'.1 = midCnt past ms.next τ'.1 := by
    intro τ' hτ' hne
    have hname : τ'.1 ≠ τ.1 := fun he =>
      hne (task_eq_of_name_eq hA hτ' hτ he)
    simp [midCnt, hkey, hname]
  have hmcτ : midCnt past (ms.next ++ [τ.1]) τ.1 =
      (schedCnt past τ.1 : Int) + 1 := by
    simp [midCnt, hkey]
  constructor
  · intro n hn
    rcases (hkey n).mp hn with h | h
    · exact hmid.next_sched n h
    · exact h ▸ ⟨τ, hτ, rfl, hincomp, hdeps⟩
  · rw [List.nodup_append]
    exact ⟨hmid.next_nodup, List.nodup_singleton _,
      fun a ha hb => hnotin ((List.mem_singleton.mp hb) ▸ ha)⟩
  · intro n
    rw [setInsert_mem, hkey, hmid.current_iff n]
  · intro τ' hτ'
    by_cases hne : τ' = τ
    · subst hne; rw [hmcτ]; omega
    · rw [hmc τ' hτ' hne]; exact hmid.cnt_le τ' hτ'
  · intro τ' hτ'
    by_cases hne : τ' = τ
    · subst hne
      rw [hmcτ]
      constructor
      · intro hc; exact absurd hc hτnc
      · intro he; exact absurd he (by omega)
    · rw [hmc τ' hτ' hne]
      exact hmid.completed_iff τ' hτ'
  · exact hmid.completed_names
  · intro τ' hτ' hlt
    by_cases hne : τ' = τ
    · subst hne
      rw [hmcτ] at hlt ⊢
      have := rmSet_find_self ms.remaining τ'.1
        (τ'.2.1 - (schedCnt past τ'.1 : Int) - 1)
      rw [this]
      congr 2
      omega
    · have hname : τ'.1 ≠ τ.1 := fun he =>
        hne (task_eq_of_name_eq hA hτ' hτ he)
      rw [hmc τ' hτ' hne] at hlt ⊢
      rw [rmSet_find_other _ _ _ _ hname]
      exact hmid.rem_some τ' hτ' hlt
  · intro τ' hτ' heq
    by_cases hne : τ' = τ
    · subst hne
      rw [hmcτ] at heq
      exact absurd heq (by omega)
    · have hname : τ'.1 ≠ τ.1 := fun he =>
        hne (task_eq_of_name_eq hA hτ' hτ he)
      rw [hmc τ' hτ' hne] at heq
      rw [rmSet_find_other _ _ _ _ hname]
      exact hmid.rem_none τ' hτ' heq
  · intro p hp
    rcases rmSet_keys _ _ _ p hp with h | h
    · rw [h]; exact List.mem_map_of_mem _ hτ
    · obtain ⟨q', hq', hq'e⟩ := List.mem_map.mp h
      rw [← hq'e]
      exact hmid.rem_names q' hq'

/-- Combined specification of one `scheduleTask` call on a schedulable
task: the mid-minute invariant is preserved, the task is appended to
the minute's schedule, and the returned completion flag is accurate. -/
theorem scheduleTask_midInv (A : List TaskE) (past : List Entry) (ms : MinSt)
    (τ : TaskE) (hA : (A.map (fun t => t.1)).Nodup) (hτ : τ ∈ A)
    (hnotin : τ.1 ∉ ms.next)
    (hincomp : (schedCnt past τ.1 : Int) < τ.2.1)
    (hdeps : ∀ d ∈ τ.2.2, ∃ δ ∈ A, δ.1 = d ∧ (schedCnt past d : Int) = δ.2.1)
    (hmid : MidInv A past ms) :
    MidInv A past (scheduleTask ms τ.1).1 ∧
    (scheduleTask ms τ.1).1.next = ms.next ++ [τ.1] ∧
    ((scheduleTask ms τ.1).2 = true ↔ (schedCnt past τ.1 : Int) + 1 = τ.2.1) ∧
    (∀ n, n ∈ (scheduleTask ms τ.1).1.completed ↔
      n ∈ ms.completed ∨ (n = τ.1 ∧ (schedCnt past τ.1 : Int) + 1 = τ.2.1)) := by
  have hmida : midCnt past ms.next τ.1 = (schedCnt past τ.1 : Int) := by
    simp [midCnt, if_neg hnotin]
  have hfind := hmid.rem_some τ hτ (by rw [hmida]; exact hincomp)
  rw [hmida] at hfind
  have hget : rmGet ms.remaining τ.1 = τ.2.1 - (schedCnt past τ.1 : Int) :=
    rmGet_of_find _ _ _ hfind
  have hτnc : τ.1 ∉ ms.completed := by
    intro hc
    have := (hmid.completed_iff τ hτ).mp hc
    rw [hmida] at this
    omega
  have heq := scheduleTask_eq ms τ.1
  rw [hget] at heq
  by_cases hr0 : τ.2.1 - (schedCnt past τ.1 : Int) - 1 = 0
  · rw [if_pos hr0] at heq
    rw [heq]
    refine ⟨scheduleTask_midInv_pos A past ms τ hA hτ hnotin hincomp hdeps
      hmid hr0, rfl, ⟨fun _ => by omega, fun _ => rfl⟩, ?_⟩
    intro n
    show n ∈ setInsert ms.completed τ.1 ↔ _
    rw [setInsert_mem]
    constructor
    · rintro (h | h)
      · exact Or.inl h
      · exact Or.inr ⟨h, by omega⟩
    · rintro (h | ⟨h, _⟩)
      · exact Or.inl h
      · exact Or.inr h
  · rw [if_neg hr0] at heq
    rw [heq]
    refine ⟨scheduleTask_midInv_neg A past ms τ hA hτ hnotin hincomp hdeps
      hmid hr0, rfl, ⟨fun h => by simp at h, fun h => absurd h (by omega)⟩, ?_⟩
    intro n
    show n ∈ ms.completed ↔ _
    constructor
    · intro h; exact Or.inl h
    · rintro (h | ⟨_, h2⟩)
      · exact h
      · exact absurd h2 (by omega)

/-- The family loop preserves the mid-minute invariant when run over a
duplicate-free list of pipeline tasks none of which was already
scheduled this minute. -/
theorem familyPass_midInv (A : List TaskE) (past : List Entry)
    (cpu_count : Nat) (hA : (A.map (fun t => t.1)).Nodup) :
    ∀ (l : List TaskE) (ms : MinSt), MidInv A past ms →
      (∀ t ∈ l, t ∈ A) → (l.map (fun t => t.1)).Nodup →
      (∀ t ∈ l, t.1 ∉ ms.next) →
      MidInv A past (familyPass cpu_count l ms) ∧
      (∀ n ∈ ms.completed, n ∈ (familyPass cpu_count l ms).completed)
  | [], ms, hmid, _, _, _ =>
    ⟨by simpa [familyPass] using hmid,
     fun n h => by simpa [familyPass] using h⟩
  | t :: rest, ms, hmid, hlA, hlnd, hlnext => by
    by_cases hc : t.1 ∈ ms.completed
    · have := familyPass_midInv A past cpu_count hA rest ms hmid
        (fun u hu => hlA u (List.mem_cons_of_mem t hu))
        (by simpa using hlnd.of_cons)
        (fun u hu => hlnext u (List.mem_cons_of_mem t hu))
      simpa only [familyPass, if_pos hc] using this
    · by_cases hel : eligible ms t.2.2 = true
      · have htA : t ∈ A := hlA t (List.mem_cons_self t rest)
        have hnotin : t.1 ∉ ms.next := hlnext t (List.mem_cons_self t rest)
        have hincomp : (schedCnt past t.1 : Int) < t.2.1 := by
          have h1 := hmid.cnt_le t htA
          have h2 : ¬ midCnt past ms.next t.1 = t.2.1 :=
            fun he => hc ((hmid.completed_iff t htA).mpr he)
          simp only [midCnt, if_neg hnotin] at h1 h2
          omega
        have hdeps := eligible_spec A past ms hmid t.2.2 hel
        obtain ⟨hmid1, hnext1, _, hcomp1⟩ := scheduleTask_midInv A past ms t
          hA htA hnotin hincomp hdeps hmid
        by_cases hfull : ((scheduleTask ms t.1).1).next.length = cpu_count
        · refine ?_
          simp only [familyPass, if_neg hc, if_pos hel, if_pos hfull]
          exact ⟨hmid1, fun n hn => (hcomp1 n).mpr (Or.inl hn)⟩
        · have hrest := familyPass_midInv A past cpu_count hA rest
            (scheduleTask ms t.1).1 hmid1
            (fun u hu => hlA u (List.mem_cons_of_mem t hu))
            (by simpa using hlnd.of_cons)
            (fun u hu => by
              rw [hnext1]
              intro hmem
              rcases List.mem_append.mp hmem with h | h
              · exact hlnext u (List.mem_cons_of_mem t hu) h
              · rw [List.mem_singleton] at h
                have : t.1 ∉ rest.map (fun t => t.1) :=
                  (List.nodup_cons.mp (by simpa using hlnd)).1
                exact this (h ▸ List.mem_map_of_mem _ hu))
          simp only [familyPass, if_neg hc, if_pos hel, if_neg hfull]
          exact ⟨hrest.1, fun n hn =>
            hrest.2 n ((hcomp1 n).mpr (Or.inl hn))⟩
      · have := familyPass_midInv A past cpu_count hA rest ms hmid
          (fun u hu => hlA u (List.mem_cons_of_mem t hu))
          (by simpa using hlnd.of_cons)
          (fun u hu => hlnext u (List.mem_cons_of_mem t hu))
        simpa only [familyPass, if_neg hc, if_neg hel] using this

/-- The `no_group` branch preserves the mid-minute invariant; moreover
either nothing is scheduled and the pool is unchanged, or exactly the
pool head is appended and it is popped exactly when it completes. -/
theorem poolPass_midInv (A : List TaskE) (past : List Entry) (cpu_count : Nat)
    (hA : (A.map (fun t => t.1)).Nodup) (ms : MinSt) (pool : List TaskE)
    (hmid : MidInv A past ms)
    (hpoolA : ∀ t ∈ pool, t ∈ A)
    (hpoolnext : ∀ t ∈ pool, t.1 ∉ ms.next)
    (hpoolinc : ∀ t ∈ pool, (schedCnt past t.1 : Int) < t.2.1) :
    MidInv A past (poolPass cpu_count ms pool).1 ∧
    (∀ n ∈ ms.completed, n ∈ (poolPass cpu_count ms pool).1.completed) ∧
    (((poolPass cpu_count ms pool).2 = pool ∧
      (poolPass cpu_count ms pool).1 = ms) ∨
     (∃ t rest, pool = t :: rest ∧
        (poolPass cpu_count ms pool).1.next = ms.next ++ [t.1] ∧
        (((poolPass cpu_count ms pool).2 = pool ∧
            (schedCnt past t.1 : Int) + 1 < t.2.1) ∨
         ((poolPass cpu_count ms pool).2 = rest ∧
            (schedCnt past t.1 : Int) + 1 = t.2.1)))) := by
  by_cases hlt : ms.next.length < cpu_count
  · cases pool with
    | nil =>
      simp only [poolPass, if_pos hlt]
      exact ⟨hmid, fun n h => h, Or.inl ⟨trivial, trivial⟩⟩
    | cons t rest =>
      by_cases hel : eligible ms t.2.2 = true
      · have htA : t ∈ A := hpoolA t (List.mem_cons_self t rest)
        have hnotin : t.1 ∉ ms.next := hpoolnext t (List.mem_cons_self t rest)
        have hincomp := hpoolinc t (List.mem_cons_self t rest)
        have hdeps := eligible_spec A past ms hmid t.2.2 hel
        obtain ⟨hmid1, hnext1, hflag1, hcomp1⟩ := scheduleTask_midInv A past
          ms t hA htA hnotin hincomp hdeps hmid
        by_cases hdone : (scheduleTask ms t.1).2 = true
        · simp only [poolPass, if_pos hlt, if_pos hel, hdone, if_true]
          refine ⟨hmid1, fun n hn => (hcomp1 n).mpr (Or.inl hn), ?_⟩
          exact Or.inr ⟨t, rest, rfl, hnext1,
            Or.inr ⟨rfl, hflag1.mp hdone⟩⟩
        · rw [Bool.not_eq_true] at hdone
          simp only [poolPass, if_pos hlt, if_pos hel, hdone, if_false]
          refine ⟨hmid1, fun n hn => (hcomp1 n).mpr (Or.inl hn), ?_⟩
          refine Or.inr ⟨t, rest, rfl, hnext1, Or.inl ⟨rfl, ?_⟩⟩
          have : ¬ ((schedCnt past t.1 : Int) + 1 = t.2.1) := by
            intro he
            rw [← hflag1] at he
            rw [hdone] at he
            exact Bool.false_ne_true he
          omega
      · simp only [poolPass, if_pos hlt, if_neg hel]
        exact ⟨hmid, fun n h => h, Or.inl ⟨trivial, trivial⟩⟩
  · simp only [poolPass, if_neg hlt]
    exact ⟨hmid, fun n h => h, Or.inl ⟨trivial, trivial⟩⟩

/-! ## Name-disjointness consequences of global uniqueness -/

theorem schedCnt_append_one (past : List Entry) (e : Entry) (n : String) :
    schedCnt (past ++ [e]) n =
      schedCnt past n + (if n ∈ e.2.1 then 1 else 0) := by
  unfold schedCnt
  rw [List.countP_append]
  simp [List.countP_cons]

theorem mem_sublist_flatMap (L : List GroupE) (g : GroupE) (h : g ∈ L) :
    g.2.Sublist (L.flatMap (fun x => x.2)) := by
  induction L with
  | nil => cases h
  | cons x rest ih =>
    rcases List.mem_cons.mp h with rfl | h
    · exact (List.sublist_append_left _ _)
    · exact (ih h).trans (List.sublist_append_right _ _)

theorem famNames_nodup {families : List GroupE} {pool0 : List TaskE}
    (hA : ((loopTasks families pool0).map (fun t => t.1)).Nodup)
    {g : GroupE} (hg : g ∈ families) : (g.2.map (fun t => t.1)).Nodup := by
  have h1 : g.2.Sublist (loopTasks families pool0) :=
    (mem_sublist_flatMap families g hg).trans (List.sublist_append_left _ _)
  exact (h1.map (fun t => t.1)).nodup hA

theorem famTasks_mem {families : List GroupE} {pool0 : List TaskE}
    {g : GroupE} (hg : g ∈ families) {t : TaskE} (ht : t ∈ g.2) :
    t ∈ loopTasks families pool0 :=
  List.mem_append_left _ ((mem_sublist_flatMap families g hg).mem ht)

theorem poolTasks_mem {families : List GroupE} {pool0 : List TaskE}
    {t : TaskE} (ht : t ∈ pool0) : t ∈ loopTasks families pool0 :=
  List.mem_append_right _ ht

theorem fam_pool_names_disjoint {families : List GroupE} {pool0 : List TaskE}
    (hA : ((loopTasks families pool0).map (fun t => t.1)).Nodup)
    {g : GroupE} (hg : g ∈ families) {n : String}
    (h1 : n ∈ g.2.map (fun t => t.1)) (h2 : n ∈ pool0.map (fun t => t.1)) :
    False := by
  unfold loopTasks at hA
  rw [List.map_append, List.nodup_append] at hA
  have hsub : n ∈ (families.flatMap (fun x => x.2)).map (fun t => t.1) :=
    ((mem_sublist_flatMap families g hg).map (fun t => t.1)).mem h1
  exact hA.2.2 hsub h2

theorem pool_names_nodup {families : List GroupE} {pool0 : List TaskE}
    (hA : ((loopTasks families pool0).map (fun t => t.1)).Nodup) :
    (pool0.map (fun t => t.1)).Nodup := by
  unfold loopTasks at hA
  rw [List.map_append, List.nodup_append] at hA
  exact hA.2.1

theorem fam_names_disjoint_lt {families : List GroupE} {pool0 : List TaskE}
    (hA : ((loopTasks families pool0).map (fun t => t.1)).Nodup)
    {i j : Nat} (hi : i < families.length) (hj : j < families.length)
    (hij : i < j) {n : String}
    (h1 : n ∈ (families.get ⟨i, hi⟩).2.map (fun t => t.1))
    (h2 : n ∈ (families.get ⟨j, hj⟩).2.map (fun t => t.1)) : False := by
  unfold loopTasks at hA
  rw [List.map_append, List.nodup_append] at hA
  have hflat := hA.1
  have hsplit : families = families.take (i+1) ++ families.drop (i+1) :=
    (List.take_append_drop (i+1) families).symm
  rw [hsplit, List.flatMap_append, List.map_append, List.nodup_append] at hflat
  have hmem_i : families.get ⟨i, hi⟩ ∈ families.take (i+1) := by
    have hlen : i < (families.take (i+1)).length := by
      rw [List.length_take]; omega
    have h3 : (families.take (i+1))[i] = families[i] := List.getElem_take _
    have h4 : families.get ⟨i, hi⟩ = (families.take (i+1))[i] := h3.symm
    rw [h4]
    exact List.getElem_mem hlen
  have hmem_j : families.get ⟨j, hj⟩ ∈ families.drop (i+1) := by
    have hlen : j - (i+1) < (families.drop (i+1)).length := by
      rw [List.length_drop]; omega
    have h3 : (families.drop (i+1))[j - (i+1)] = families[(i+1) + (j - (i+1))] :=
      List.getElem_drop _
    have h5 : families[(i+1) + (j - (i+1))] = families.get ⟨j, hj⟩ := by
      simp only [List.get_eq_getElem]
      congr 1
      omega
    have h4 : families.get ⟨j, hj⟩ = (families.drop (i+1))[j - (i+1)] := by
      rw [h3, h5]
    rw [h4]
    exact List.getElem_mem hlen
  have hin1 : n ∈ ((families.take (i+1)).flatMap (fun x => x.2)).map
      (fun t => t.1) :=
    ((mem_sublist_flatMap _ _ hmem_i).map (fun t => t.1)).mem h1
  have hin2 : n ∈ ((families.drop (i+1)).flatMap (fun x => x.2)).map
      (fun t => t.1) :=
    ((mem_sublist_flatMap _ _ hmem_j).map (fun t => t.1)).mem h2
  exact hflat.2.2 hin1 hin2

theorem fam_names_disjoint {families : List GroupE} {pool0 : List TaskE}
    (hA : ((loopTasks families pool0).map (fun t => t.1)).Nodup)
    {i j : Nat} (hi : i < families.length) (hj : j < families.length)
    (hij : i ≠ j) {n : String}
    (h1 : n ∈ (families.get ⟨i, hi⟩).2.map (fun t => t.1))
    (h2 : n ∈ (families.get ⟨j, hj⟩).2.map (fun t => t.1)) : False := by
  rcases Nat.lt_or_ge i j with h | h
  · exact fam_names_disjoint_lt hA hi hj h h1 h2
  · have : j < i := by omega
    exact fam_names_disjoint_lt hA hj hi this h2 h1

/-- Work still to do after the trace `past`: the simulator's loop
measure. -/
def measureNat (A : List TaskE) (past : List Entry) : Nat :=
  (A.map (fun τ => (τ.2.1 - (schedCnt past τ.1 : Int)).toNat)).sum

theorem schedCnt_append_cast (past : List Entry) (next : List String)
    (mn : Nat) (label : String) (n : String) :
    (schedCnt (past ++ [(mn, next, label)]) n : Int) = midCnt past next n := by
  rw [schedCnt_append_one]
  unfold midCnt
  push_cast
  split <;> simp

/-- Packaging the end-of-minute mid-invariant into the next
between-minutes invariant. -/
theorem simInv_after_minute (families : List GroupE) (pool0 : List TaskE)
    (past : List Entry) (ms : MinSt) (label : String) (st' : SimSt)
    (hrem : st'.remaining = ms.remaining) (hcomp : st'.completed = ms.completed)
    (hmid : MidInv (loopTasks families pool0) past ms)
    (hpool : ∃ k, st'.pool = pool0.drop k)
    (hpoolinc : ∀ t ∈ st'.pool, midCnt past ms.next t.1 < t.2.1)
    (hfle : st'.familyIndex ≤ families.length)
    (hearly : ∀ i, i < st'.familyIndex → ∀ h2 : i < families.length,
      ∀ t ∈ (families.get ⟨i, h2⟩).2, t.1 ∈ ms.completed)
    (hmins : ∀ i : Fin past.length, (past.get i).1 = i.1 + 1) :
    SimInv families pool0 (past ++ [(past.length + 1, ms.next, label)]) st' := by
  have hcnt : ∀ n, (schedCnt (past ++ [(past.length + 1, ms.next, label)]) n : Int)
      = midCnt past ms.next n :=
    schedCnt_append_cast past ms.next (past.length + 1) label
  constructor
  · intro τ hτ; rw [hcnt]; exact hmid.cnt_le τ hτ
  · intro τ hτ; rw [hcnt, hcomp]; exact hmid.completed_iff τ hτ
  · rw [hcomp]; exact hmid.completed_names
  · intro τ hτ hlt
    rw [hcnt] at hlt ⊢
    rw [hrem]
    exact hmid.rem_some τ hτ hlt
  · intro τ hτ heq
    rw [hcnt] at heq
    rw [hrem]
    exact hmid.rem_none τ hτ heq
  · rw [hrem]; exact hmid.rem_names
  · exact hpool
  · intro t ht; rw [hcnt]; exact hpoolinc t ht
  · exact hfle
  · intro i hlt h2 t ht
    rw [hcomp]
    exact hearly i hlt h2 t ht
  · intro i
    by_cases hi : i.1 < past.length
    · have h1 : (past ++ [(past.length + 1, ms.next, label)]).get i =
          past.get ⟨i.1, hi⟩ := by
        simp [List.getElem_append_left hi]
      rw [h1]
      exact hmins ⟨i.1, hi⟩
    · have hlen : i.1 < past.length + 1 := by simpa using i.2
      have hieq : i.1 = past.length := by omega
      have h1 : (past ++ [(past.length + 1, ms.next, label)]).get i =
          (past.length + 1, ms.next, label) := by
        simp only [List.get_eq_getElem]
        rw [List.getElem_append_right (le_of_eq hieq.symm)]
        simp [hieq]
      rw [h1, hieq]

/-- A minute that schedules at least one task strictly decreases the
remaining work. -/
theorem measure_decreases (A : List TaskE) (past : List Entry) (ms : MinSt)
    (hmid : MidInv A past ms) (hne : ms.next ≠ [])
    (mn : Nat) (label : String) :
    measureNat A (past ++ [(mn, ms.next, label)]) < measureNat A past := by
  obtain ⟨n, hn⟩ : ∃ n, n ∈ ms.next := by
    cases hms : ms.next with
    | nil => exact absurd hms hne
    | cons a l => exact ⟨a, hms ▸ List.mem_cons_self a l⟩
  obtain ⟨τ0, hτ0, hτ0e, hτ0inc, _⟩ := hmid.next_sched n hn
  unfold measureNat
  apply List.sum_lt_sum
  · intro τ hτ
    have h1 := schedCnt_append_cast past ms.next mn label τ.1
    have h2 : (schedCnt past τ.1 : Int) ≤
        (schedCnt (past ++ [(mn, ms.next, label)]) τ.1 : Int) := by
      rw [h1]; unfold midCnt; split <;> omega
    omega
  · refine ⟨τ0, hτ0, ?_⟩
    have h1 := schedCnt_append_cast past ms.next mn label τ0.1
    have h2 : (schedCnt (past ++ [(mn, ms.next, label)]) τ0.1 : Int) =
        (schedCnt past τ0.1 : Int) + 1 := by
      rw [h1]; unfold midCnt; rw [if_pos (hτ0e ▸ hn)]
    rw [hτ0e] at h2 ⊢
    omega

/-- The C2 payload of one trace entry: every scheduled task's
dependencies name pipeline tasks that completed in strictly earlier
minutes. -/
def entryC2OK (A : List TaskE) (past : List Entry) (tasks : List String) : Prop :=
  ∀ n ∈ tasks, ∀ τ ∈ A, τ.1 = n →
    ∀ d ∈ τ.2.2, ∃ δ ∈ A, δ.1 = d ∧ (schedCnt past d : Int) = δ.2.1

/-- The C3 payload of one trace entry: a scheduled task of ordered
group `j` implies every task of every earlier group completed in
strictly earlier minutes. -/
def entryC3OK (families : List GroupE) (past : List Entry)
    (tasks : List String) : Prop :=
  ∀ n ∈ tasks, ∀ j, ∀ hj : j < families.length,
    ∀ τ ∈ (families.get ⟨j, hj⟩).2, τ.1 = n →
    ∀ i, i < j → ∀ hi : i < families.length,
      ∀ u ∈ (families.get ⟨i, hi⟩).2, (schedCnt past u.1 : Int) = u.2.1

theorem entryC2_of_mid {A : List TaskE} {past : List Entry} {ms : MinSt}
    (hA : (A.map (fun t => t.1)).Nodup) (hmid : MidInv A past ms) :
    entryC2OK A past ms.next := by
  intro n hn τ hτ hτe d hd
  obtain ⟨τ', hτ', hτ'e, _, hdeps⟩ := hmid.next_sched n hn
  have heq : τ = τ' := task_eq_of_name_eq hA hτ hτ' (by rw [hτe, hτ'e])
  subst heq
  exact hdeps d hd

/-- One simulator minute: the invariant is preserved, the appended
entry carries the right minute number and the C2/C3 payloads, the
active-group index never decreases, and a non-empty minute strictly
decreases the remaining work. -/
theorem simStep_inv (families : List GroupE) (pool0 : List TaskE)
    (cpu_count : Nat) (past : List Entry) (st : SimSt)
    (hA : ((loopTasks families pool0).map (fun t => t.1)).Nodup)
    (hInv : SimInv families pool0 past st) :
    SimInv families pool0
      (past ++ [(simStep families cpu_count (past.length + 1) st).2])
      (simStep families cpu_count (past.length + 1) st).1 ∧
    (simStep families cpu_count (past.length + 1) st).2.1 = past.length + 1 ∧
    st.familyIndex ≤ (simStep families cpu_count (past.length + 1) st).1.familyIndex ∧
    entryC2OK (loopTasks families pool0) past
      (simStep families cpu_count (past.length + 1) st).2.2.1 ∧
    entryC3OK families past
      (simStep families cpu_count (past.length + 1) st).2.2.1 ∧
    ((simStep families cpu_count (past.length + 1) st).2.2.1 ≠ [] →
      measureNat (loopTasks families pool0)
        (past ++ [(simStep families cpu_count (past.length + 1) st).2])
        < measureNat (loopTasks families pool0) past) := by
  have hmid0 := midInv_init families pool0 past st hInv
  obtain ⟨k, hk⟩ := hInv.pool_suffix
  have hpoolA : ∀ t ∈ st.pool, t ∈ loopTasks families pool0 := fun t ht =>
    poolTasks_mem (List.mem_of_mem_drop (hk ▸ ht))
  have hpool0mem : ∀ t ∈ st.pool, t ∈ pool0 := fun t ht =>
    List.mem_of_mem_drop (hk ▸ ht)
  have hpoolNodup : (st.pool.map (fun t => t.1)).Nodup := by
    have h1 : st.pool.Sublist pool0 := hk ▸ List.drop_sublist k pool0
    exact (h1.map (fun t => t.1)).nodup (pool_names_nodup hA)
  cases hfam : families[st.familyIndex]? with
  | none =>
    have hlen : families.length ≤ st.familyIndex := by
      by_contra h
      rw [not_le] at h
      rw [List.getElem?_eq_getElem h] at hfam
      cases hfam
    obtain ⟨hmidP, hcm, hcases⟩ := poolPass_midInv (loopTasks families pool0)
      past cpu_count hA
      { next := [], current := [], remaining := st.remaining,
        completed := st.completed } st.pool hmid0 hpoolA
      (fun t _ => by simp) hInv.pool_incomplete
    have hstep : simStep families cpu_count (past.length + 1) st =
        ({ remaining := (poolPass cpu_count
             { next := [], current := [], remaining := st.remaining,
               completed := st.completed } st.pool).1.remaining,
           completed := (poolPass cpu_count
             { next := [], current := [], remaining := st.remaining,
               completed := st.completed } st.pool).1.completed,
           pool := (poolPass cpu_count
             { next := [], current := [], remaining := st.remaining,
               completed := st.completed } st.pool).2,
           familyIndex := st.familyIndex },
         (past.length + 1, (poolPass cpu_count
             { next := [], current := [], remaining := st.remaining,
               completed := st.completed } st.pool).1.next, "no_group")) := by
      simp [simStep, hfam]
    rw [hstep]
    have hpoolOut : (∃ k', (poolPass cpu_count
        { next := [], current := [], remaining := st.remaining,
          completed := st.completed } st.pool).2 = pool0.drop k') ∧
        (∀ u ∈ (poolPass cpu_count
          { next := [], current := [], remaining := st.remaining,
            completed := st.completed } st.pool).2,
          midCnt past (poolPass cpu_count
            { next := [], current := [], remaining := st.remaining,
              completed := st.completed } st.pool).1.next u.1 < u.2.1) := by
      rcases hcases with ⟨hp2, hp1⟩ | ⟨t, rest, hpool, hnext2, hsub⟩
      · refine ⟨⟨k, by rw [hp2, hk]⟩, ?_⟩
        intro u hu
        rw [hp2] at hu
        rw [hp1]
        simpa [midCnt] using hInv.pool_incomplete u hu
      · have hheadpool : t ∈ st.pool := hpool ▸ List.mem_cons_self t rest
        have htailname : ∀ u ∈ rest, u.1 ≠ t.1 := by
          intro u hu he
          rw [hpool] at hpoolNodup
          simp only [List.map_cons, List.nodup_cons] at hpoolNodup
          exact hpoolNodup.1 (he ▸ List.mem_map_of_mem _ hu)
        rcases hsub with ⟨hp2, hlt2⟩ | ⟨hp2, heq2⟩
        · refine ⟨⟨k, by rw [hp2, hk]⟩, ?_⟩
          intro u hu
          rw [hp2, hpool] at hu
          rw [hnext2]
          rcases List.mem_cons.mp hu with rfl | hu2
          · simp only [midCnt]
            rw [if_pos (by simp)]
            omega
          · simp only [midCnt]
            rw [if_neg (by
              simp only [List.mem_append, List.mem_singleton]
              push_neg
              exact ⟨by simp, htailname u hu2⟩)]
            have := hInv.pool_incomplete u (hpool ▸ List.mem_cons_of_mem t hu2)
            simpa using this
        · refine ⟨⟨k + 1, ?_⟩, ?_⟩
          · rw [hp2]
            have : pool0.drop (k + 1) = (pool0.drop k).drop 1 := by
              rw [List.drop_drop]
            rw [this, ← hk, hpool]
            rfl
          · intro u hu
            rw [hp2] at hu
            rw [hnext2]
            simp only [midCnt]
            rw [if_neg (by
              simp only [List.mem_append, List.mem_singleton]
              push_neg
              exact ⟨by simp, htailname u hu⟩)]
            have := hInv.pool_incomplete u (hpool ▸ List.mem_cons_of_mem t hu)
            simpa using this
    refine ⟨?_, rfl, le_refl _, ?_, ?_, ?_⟩
    · exact simInv_after_minute families pool0 past _ "no_group" _ rfl rfl
        hmidP hpoolOut.1 hpoolOut.2
        (by simpa using hInv.fidx_le)
        (by
          intro i hlt h2 u hu
          exact hcm u.1 (hInv.earlier_complete i hlt h2 u hu))
        hInv.minutes
    · exact entryC2_of_mid hA hmidP
    · intro n hn j hj τ hτ hτe i hij hi u hu
      exfalso
      rcases hcases with ⟨hp2, hp1⟩ | ⟨t, rest, hpool, hnext2, hsub⟩
      · rw [hp1] at hn
        simp at hn
      · rw [hnext2] at hn
        simp only [List.nil_append, List.mem_singleton] at hn
        have htpool0 : t ∈ pool0 := hpool0mem t (hpool ▸ List.mem_cons_self t rest)
        have hjmem : families.get ⟨j, hj⟩ ∈ families := List.get_mem _ _ _
        have h1 : n ∈ (families.get ⟨j, hj⟩).2.map (fun t => t.1) := by
          rw [← hτe]; exact List.mem_map_of_mem _ hτ
        have h2 : n ∈ pool0.map (fun t => t.1) := by
          rw [hn]; exact List.mem_map_of_mem _ htpool0
        exact fam_pool_names_disjoint hA hjmem h1 h2
    · intro hne
      exact measure_decreases _ past _ hmidP hne _ _
  | some fam =>
    have hlt : st.familyIndex < families.length := by
      rcases List.getElem?_eq_some_iff.mp hfam with ⟨h, _⟩
      exact h
    have hfameq : families[st.familyIndex] = fam := by
      rcases List.getElem?_eq_some_iff.mp hfam with ⟨h, he⟩
      exact he
    have hfamget : families.get ⟨st.familyIndex, hlt⟩ = fam := hfameq
    have hfammem : fam ∈ families := by
      rw [← hfameq]; exact List.getElem_mem hlt
    have hfamA : ∀ t ∈ fam.2, t ∈ loopTasks families pool0 := fun t ht =>
      famTasks_mem hfammem ht
    have hfamnd : (fam.2.map (fun t => t.1)).Nodup := famNames_nodup hA hfammem
    obtain ⟨hmid1, hcm1⟩ := familyPass_midInv (loopTasks families pool0) past
      cpu_count hA fam.2
      { next := [], current := [], remaining := st.remaining,
        completed := st.completed }
      hmid0 hfamA hfamnd (fun t _ => by simp)
    obtain ⟨extra, hextra, hextraMem⟩ := familyPass_next cpu_count fam.2
      { next := [], current := [], remaining := st.remaining,
        completed := st.completed }
    have hms1nextsub : ∀ nn ∈ (familyPass cpu_count fam.2
        { next := [], current := [], remaining := st.remaining,
          completed := st.completed }).next,
        nn ∈ fam.2.map (fun t => t.1) := by
      intro nn hnn
      rw [hextra] at hnn
      simp only [List.nil_append] at hnn
      exact hextraMem nn hnn
    have hpoolnext1 : ∀ t ∈ st.pool, t.1 ∉ (familyPass cpu_count fam.2
        { next := [], current := [], remaining := st.remaining,
          completed := st.completed }).next := by
      intro t ht hmem
      exact fam_pool_names_disjoint hA hfammem (hms1nextsub t.1 hmem)
        (List.mem_map_of_mem _ (hpool0mem t ht))
    obtain ⟨hmidP, hcmP, hcases⟩ := poolPass_midInv (loopTasks families pool0)
      past cpu_count hA
      (familyPass cpu_count fam.2
        { next := [], current := [], remaining := st.remaining,
          completed := st.completed }) st.pool hmid1 hpoolA hpoolnext1
      hInv.pool_incomplete
    have hpoolOut :
        (∃ k', (poolPass cpu_count
          (familyPass cpu_count fam.2
            { next := [], current := [], remaining := st.remaining,
              completed := st.completed }) st.pool).2 = pool0.drop k') ∧
        (∀ u ∈ (poolPass cpu_count
          (familyPass cpu_count fam.2
            { next := [], current := [], remaining := st.remaining,
              completed := st.completed }) st.pool).2,
          midCnt past (poolPass cpu_count
            (familyPass cpu_count fam.2
              { next := [], current := [], remaining := st.remaining,
                completed := st.completed }) st.pool).1.next u.1 < u.2.1) := by
      rcases hcases with ⟨hp2, hp1⟩ | ⟨t, rest, hpool, hnext2, hsub⟩
      · refine ⟨⟨k, by rw [hp2, hk]⟩, ?_⟩
        intro u hu
        rw [hp2] at hu
        rw [hp1]
        simp only [midCnt]
        rw [if_neg (hpoolnext1 u hu)]
        simpa using hInv.pool_incomplete u hu
      · have htailname : ∀ u ∈ rest, u.1 ≠ t.1 := by
          intro u hu he
          rw [hpool] at hpoolNodup
          simp only [List.map_cons, List.nodup_cons] at hpoolNodup
          exact hpoolNodup.1 (he ▸ List.mem_map_of_mem _ hu)
        rcases hsub with ⟨hp2, hlt2⟩ | ⟨hp2, heq2⟩
        · refine ⟨⟨k, by rw [hp2, hk]⟩, ?_⟩
          intro u hu
          rw [hp2, hpool] at hu
          rw [hnext2]
          rcases List.mem_cons.mp hu with rfl | hu2
          · simp only [midCnt]
            rw [if_pos (by simp)]
            omega
          · simp only [midCnt]
            rw [if_neg (by
              simp only [List.mem_append, List.mem_singleton]
              push_neg
              refine ⟨?_, htailname u hu2⟩
              exact hpoolnext1 u (hpool ▸ List.mem_cons_of_mem t hu2))]
            simpa using hInv.pool_incomplete u
              (hpool ▸ List.mem_cons_of_mem t hu2)
        · refine ⟨⟨k + 1, ?_⟩, ?_⟩
          · rw [hp2]
            have hdd : pool0.drop (k + 1) = (pool0.drop k).drop 1 := by
              rw [List.drop_drop]
            rw [hdd, ← hk, hpool]
            rfl
          · intro u hu
            rw [hp2] at hu
            rw [hnext2]
            simp only [midCnt]
            rw [if_neg (by
              simp only [List.mem_append, List.mem_singleton]
              push_neg
              refine ⟨?_, htailname u hu⟩
              exact hpoolnext1 u (hpool ▸ List.mem_cons_of_mem t hu))]
            simpa using hInv.pool_incomplete u
              (hpool ▸ List.mem_cons_of_mem t hu)
    have hnextdec : ∀ n ∈ (poolPass cpu_count
        (familyPass cpu_count fam.2
          { next := [], current := [], remaining := st.remaining,
            completed := st.completed }) st.pool).1.next,
        n ∈ fam.2.map (fun t => t.1) ∨ n ∈ pool0.map (fun t => t.1) := by
      intro n hn
      rcases hcases with ⟨hp2, hp1⟩ | ⟨t, rest, hpool, hnext2, hsub⟩
      · rw [hp1] at hn
        exact Or.inl (hms1nextsub n hn)
      · rw [hnext2] at hn
        rcases List.mem_append.mp hn with h | h
        · exact Or.inl (hms1nextsub n h)
        · rw [List.mem_singleton] at h
          refine Or.inr ?_
          rw [h]
          exact List.mem_map_of_mem _
            (hpool0mem t (hpool ▸ List.mem_cons_self t rest))
    have hC3 : entryC3OK families past (poolPass cpu_count
        (familyPass cpu_count fam.2
          { next := [], current := [], remaining := st.remaining,
            completed := st.completed }) st.pool).1.next := by
      intro n hn j hj τ hτ hτe i hij hi u hu
      have hnj : n ∈ (families.get ⟨j, hj⟩).2.map (fun t => t.1) := by
        rw [← hτe]; exact List.mem_map_of_mem _ hτ
      rcases hnextdec n hn with hfamn | hpooln
      · have hj_eq : j = st.familyIndex := by
          by_contra hne
          refine fam_names_disjoint hA hj hlt hne hnj ?_
          rw [hfamget]
          exact hfamn
        subst hj_eq
        have hcomp := hInv.earlier_complete i hij hi u hu
        have humem : u ∈ loopTasks families pool0 :=
          famTasks_mem (List.get_mem _ _ _) hu
        exact (hInv.completed_iff u humem).mp hcomp
      · exact absurd hpooln (fun hp =>
          fam_pool_names_disjoint hA (List.get_mem _ _ _) hnj hp)
    by_cases hadv : (fam.2.all fun t => decide (t.1 ∈ (familyPass cpu_count fam.2
        { next := [], current := [], remaining := st.remaining,
          completed := st.completed }).completed)) = true
    · have h1 : (simStep families cpu_count (past.length + 1) st).1 =
          { remaining := (poolPass cpu_count
              (familyPass cpu_count fam.2
                { next := [], current := [], remaining := st.remaining,
                  completed := st.completed }) st.pool).1.remaining,
            completed := (poolPass cpu_count
              (familyPass cpu_count fam.2
                { next := [], current := [], remaining := st.remaining,
                  completed := st.completed }) st.pool).1.completed,
            pool := (poolPass cpu_count
              (familyPass cpu_count fam.2
                { next := [], current := [], remaining := st.remaining,
                  completed := st.completed }) st.pool).2,
            familyIndex := st.familyIndex + 1 } := by
        simp [simStep, hfam, hadv]
      have h2 : (simStep families cpu_count (past.length + 1) st).2.1 =
          past.length + 1 := by
        simp [simStep, hfam, hadv]
      have h3 : (simStep families cpu_count (past.length + 1) st).2.2.1 =
          (poolPass cpu_count
            (familyPass cpu_count fam.2
              { next := [], current := [], remaining := st.remaining,
                completed := st.completed }) st.pool).1.next := by
        simp [simStep, hfam, hadv]
      have h4 : (simStep families cpu_count (past.length + 1) st).2 =
          (past.length + 1, (poolPass cpu_count
            (familyPass cpu_count fam.2
              { next := [], current := [], remaining := st.remaining,
                completed := st.completed }) st.pool).1.next,
            (simStep families cpu_count (past.length + 1) st).2.2.2) := by
        have h5 : (simStep families cpu_count (past.length + 1) st).2 =
            ((simStep families cpu_count (past.length + 1) st).2.1,
             (simStep families cpu_count (past.length + 1) st).2.2.1,
             (simStep families cpu_count (past.length + 1) st).2.2.2) := rfl
        rw [h5, h2, h3]
      refine ⟨?_, h2, ?_, ?_, ?_, ?_⟩
      · rw [h4, h1]
        refine simInv_after_minute families pool0 past _ _ _ rfl rfl hmidP
          hpoolOut.1 hpoolOut.2 (by simpa using hlt) ?_ hInv.minutes
        intro i hilt h2i u hu
        rcases Nat.lt_or_ge i st.familyIndex with hio | hio
        · exact hcmP u.1 (hcm1 u.1 (hInv.earlier_complete i hio h2i u hu))
        · have hieq : i = st.familyIndex := by
            simp only [] at hilt
            omega
          subst hieq
          have hufam : u ∈ fam.2 := by
            rw [← hfamget]
            convert hu using 2
          have := List.all_eq_true.mp hadv u hufam
          exact hcmP u.1 (of_decide_eq_true this)
      · rw [h1]
        exact Nat.le_succ _
      · rw [h3]
        exact entryC2_of_mid hA hmidP
      · rw [h3]
        exact hC3
      · intro hne
        rw [h3] at hne
        rw [h4]
        exact measure_decreases _ past _ hmidP hne _ _
    · have h1 : (simStep families cpu_count (past.length + 1) st).1 =
          { remaining := (poolPass cpu_count
              (familyPass cpu_count fam.2
                { next := [], current := [], remaining := st.remaining,
                  completed := st.completed }) st.pool).1.remaining,
            completed := (poolPass cpu_count
              (familyPass cpu_count fam.2
                { next := [], current := [], remaining := st.remaining,
                  completed := st.completed }) st.pool).1.completed,
            pool := (poolPass cpu_count
              (familyPass cpu_count fam.2
                { next := [], current := [], remaining := st.remaining,
                  completed := st.completed }) st.pool).2,
            familyIndex := st.familyIndex } := by
        simp [simStep, hfam, hadv]
      have h2 : (simStep families cpu_count (past.length + 1) st).2.1 =
          past.length + 1 := by
        simp [simStep, hfam, hadv]
      have h3 : (simStep families cpu_count (past.length + 1) st).2.2.1 =
          (poolPass cpu_count
            (familyPass cpu_count fam.2
              { next := [], current := [], remaining := st.remaining,
                completed := st.completed }) st.pool).1.next := by
        simp [simStep, hfam, hadv]
      have h4 : (simStep families cpu_count (past.length + 1) st).2 =
          (past.length + 1, (poolPass cpu_count
            (familyPass cpu_count fam.2
              { next := [], current := [], remaining := st.remaining,
                completed := st.completed }) st.pool).1.next,
            (simStep families cpu_count (past.length + 1) st).2.2.2) := by
        have h5 : (simStep families cpu_count (past.length + 1) st).2 =
            ((simStep families cpu_count (past.length + 1) st).2.1,
             (simStep families cpu_count (past.length + 1) st).2.2.1,
             (simStep families cpu_count (past.length + 1) st).2.2.2) := rfl
        rw [h5, h2, h3]
      refine ⟨?_, h2, ?_, ?_, ?_, ?_⟩
      · rw [h4, h1]
        refine simInv_after_minute families pool0 past _ _ _ rfl rfl hmidP
          hpoolOut.1 hpoolOut.2 (by simpa using hInv.fidx_le) ?_ hInv.minutes
        intro i hilt h2i u hu
        exact hcmP u.1 (hcm1 u.1 (hInv.earlier_complete i hilt h2i u hu))
      · rw [h1]
      · rw [h3]
        exact entryC2_of_mid hA hmidP
      · rw [h3]
        exact hC3
      · intro hne
        rw [h3] at hne
        rw [h4]
        exact measure_decreases _ past _ hmidP hne _ _

/-! ## The initial state satisfies the invariant -/

theorem foldl_rmSet_find_not_mem :
    ∀ (ts : List TaskE) (m : RemainingMap) (kk : String),
      ¬ kk ∈ ts.map (fun t => t.1) →
      (ts.foldl (fun m t => rmSet m t.1 t.2.1) m).find?
          (fun p => decide (p.1 = kk)) =
        m.find? (fun p => decide (p.1 = kk))
  | [], m, kk, _ => rfl
  | t :: rest, m, kk, h => by
    have h1 : ¬ kk ∈ rest.map (fun t => t.1) := by
      intro hc; exact h (List.mem_cons_of_mem _ hc)
    have h2 : kk ≠ t.1 := by
      intro hc; exact h (hc ▸ List.mem_cons_self _ _)
    simp only [List.foldl_cons]
    rw [foldl_rmSet_find_not_mem rest _ kk h1]
    exact rmSet_find_other m t.1 kk t.2.1 h2

theorem foldl_rmSet_find_mem :
    ∀ (ts : List TaskE) (m : RemainingMap) (τ : TaskE),
      (ts.map (fun t => t.1)).Nodup → τ ∈ ts →
      (ts.foldl (fun m t => rmSet m t.1 t.2.1) m).find?
          (fun p => decide (p.1 = τ.1)) = some (τ.1, τ.2.1)
  | [], _, τ, _, h => absurd h (List.not_mem_nil τ)
  | t :: rest, m, τ, hnd, h => by
    simp only [List.foldl_cons]
    rcases List.mem_cons.mp h with rfl | h2
    · have hnm : ¬ τ.1 ∈ rest.map (fun t => t.1) :=
        (List.nodup_cons.mp (by simpa using hnd)).1
      rw [foldl_rmSet_find_not_mem rest _ τ.1 hnm]
      exact rmSet_find_self m τ.1 τ.2.1
    · exact foldl_rmSet_find_mem rest _ τ (by simpa using hnd.of_cons) h2

theorem foldl_rmSet_keys :
    ∀ (ts : List TaskE) (m : RemainingMap),
      ∀ p ∈ ts.foldl (fun m t => rmSet m t.1 t.2.1) m,
        p.1 ∈ ts.map (fun t => t.1) ∨ p.1 ∈ m.map (fun q => q.1)
  | [], m, p, hp => Or.inr (List.mem_map_of_mem _ hp)
  | t :: rest, m, p, hp => by
    simp only [List.foldl_cons] at hp
    rcases foldl_rmSet_keys rest _ p hp with h | h
    · exact Or.inl (by simp [h])
    · obtain ⟨q, hq, hqe⟩ := List.mem_map.mp h
      rcases rmSet_keys m t.1 t.2.1 q hq with h2 | h2
      · left
        rw [← hqe, h2]
        simp
      · right
        rw [← hqe]
        exact h2

theorem foldl_groups_eq {σ : Type} (f : σ → TaskE → σ) :
    ∀ (L : List GroupE) (m : σ),
      L.foldl (fun m fam => fam.2.foldl f m) m =
        (L.flatMap (fun g => g.2)).foldl f m
  | [], _ => rfl
  | g :: rest, m => by
    simp only [List.foldl_cons, List.flatMap_cons, List.foldl_append]
    exact foldl_groups_eq f rest _

theorem initRemaining_eq (families : List GroupE) (pool0 : List TaskE) :
    initRemaining families pool0 =
      (loopTasks families pool0).foldl (fun m t => rmSet m t.1 t.2.1) [] := by
  unfold initRemaining loopTasks
  rw [foldl_groups_eq, List.foldl_append]

theorem simInv_initial (families : List GroupE) (pool0 : List TaskE)
    (hA : ((loopTasks families pool0).map (fun t => t.1)).Nodup)
    (hD : ∀ t ∈ loopTasks families pool0, 1 ≤ t.2.1) :
    SimInv families pool0 []
      { remaining := initRemaining families pool0, completed := [],
        pool := pool0, familyIndex := 0 } := by
  constructor
  · intro τ hτ
    have := hD τ hτ
    simp [schedCnt]
    omega
  · intro τ hτ
    have := hD τ hτ
    constructor
    · intro h; simp at h
    · intro h; simp [schedCnt] at h; omega
  · intro n hn; simp at hn
  · intro τ hτ _
    rw [initRemaining_eq]
    rw [foldl_rmSet_find_mem (loopTasks families pool0) [] τ hA hτ]
    simp [schedCnt]
  · intro τ hτ heq
    have := hD τ hτ
    simp [schedCnt] at heq
    omega
  · intro p hp
    rw [initRemaining_eq] at hp
    rcases foldl_rmSet_keys _ [] p hp with h | h
    · exact h
    · simp at h
  · exact ⟨0, rfl⟩
  · intro t ht
    have := hD t (poolTasks_mem ht)
    simp [schedCnt]
    omega
  · exact Nat.zero_le _
  · intro i h
    exact absurd h (Nat.not_lt_zero i)
  · intro i
    exact absurd i.2 (by simp)

/-! ## The chosen fuel suffices -/

def sumDur (l : List TaskE) : Nat := (l.map (fun t => t.2.1.toNat)).sum

theorem sumDur_append (a b : List TaskE) :
    sumDur (a ++ b) = sumDur a + sumDur b := by
  unfold sumDur
  rw [List.map_append, List.sum_append]

theorem measureNat_nil (A : List TaskE) : measureNat A [] = sumDur A := by
  unfold measureNat sumDur
  congr 1
  apply List.map_congr_left
  intro τ _
  simp [schedCnt]

theorem foldl_add_toNat :
    ∀ (ts : List TaskE) (a : Nat),
      ts.foldl (fun a t => a + t.2.1.toNat) a = a + sumDur ts
  | [], a => by simp [sumDur]
  | t :: rest, a => by
    simp only [List.foldl_cons]
    rw [foldl_add_toNat rest]
    unfold sumDur
    simp only [List.map_cons, List.sum_cons]
    omega

theorem sumDur_flat (L : List GroupE) :
    sumDur (L.flatMap (fun g => g.2)) = (L.map (fun g => sumDur g.2)).sum := by
  induction L with
  | nil => rfl
  | cons g rest ih =>
    simp only [List.flatMap_cons, List.map_cons, List.sum_cons]
    rw [sumDur_append, ih]

theorem simFuel_eq (task_list : PipelineE) :
    simFuel task_list = sumDur (task_list.flatMap (fun g => g.2)) + 1 := by
  unfold simFuel
  rw [foldl_groups_eq, foldl_add_toNat]
  omega

theorem measure_lt_simFuel (task_list : PipelineE) :
    measureNat (loopTasks (simFamilies task_list) (simPool task_list)) []
      < simFuel task_list := by
  rw [measureNat_nil, simFuel_eq]
  unfold loopTasks
  rw [sumDur_append]
  have hperm : (task_list.filter (fun g => ¬ g.1 = "no_group") ++
      task_list.filter (fun g => g.1 = "no_group")).Perm task_list := by
    have h1 := List.filter_append_perm (fun g => ¬ g.1 = "no_group") task_list
    have h2 : task_list.filter (fun g => !(decide (¬ g.1 = "no_group"))) =
        task_list.filter (fun g => decide (g.1 = "no_group")) := by
      apply List.filter_congr
      intro g _
      simp [decide_not]
    rw [h2] at h1
    exact h1
  have hsum : sumDur ((task_list.filter (fun g => ¬ g.1 = "no_group")).flatMap
        (fun g => g.2)) +
      sumDur ((task_list.filter (fun g => g.1 = "no_group")).flatMap
        (fun g => g.2)) =
      sumDur (task_list.flatMap (fun g => g.2)) := by
    rw [sumDur_flat, sumDur_flat, sumDur_flat, ← List.sum_append,
      ← List.map_append]
    exact List.Perm.sum_eq (List.Perm.map _ hperm)
  have hpool : sumDur (simPool task_list) ≤
      sumDur ((task_list.filter (fun g => g.1 = "no_group")).flatMap
        (fun g => g.2)) := by
    unfold simPool
    cases hc : task_list.filter (fun g => g.1 = "no_group") with
    | nil => simp [sumDur]
    | cons g rest =>
      simp only [List.flatMap_cons]
      rw [sumDur_append]
      omega
  unfold simFamilies
  omega

/-! ## Loop-level lemmas -/

theorem simLoop_succ (families : List GroupE) (cpu_count fuel minute : Nat)
    (st : SimSt) :
    simLoop families cpu_count (fuel+1) minute st =
      if st.familyIndex < families.length ∨ st.remaining ≠ [] then
        (if (simStep families cpu_count (minute + 1) st).2.2.1 = []
         then [(simStep families cpu_count (minute + 1) st).2]
         else (simStep families cpu_count (minute + 1) st).2 ::
           simLoop families cpu_count fuel (minute + 1)
             (simStep families cpu_count (minute + 1) st).1)
      else [] := by
  simp only [simLoop]

theorem simLoop_entries (families : List GroupE) (pool0 : List TaskE)
    (cpu_count : Nat)
    (hA : ((loopTasks families pool0).map (fun t => t.1)).Nodup) :
    ∀ (fuel : Nat) (st : SimSt) (past : List Entry),
      SimInv families pool0 past st →
      measureNat (loopTasks families pool0) past < fuel →
      ∀ i e,
        (past ++ simLoop families cpu_count fuel past.length st)[i]? = some e →
        past.length ≤ i →
        entryC2OK (loopTasks families pool0)
          ((past ++ simLoop families cpu_count fuel past.length st).take i)
          e.2.1 ∧
        entryC3OK families
          ((past ++ simLoop families cpu_count fuel past.length st).take i)
          e.2.1
  | 0, st, past, _, hfuel, i, e, he, hi => by omega
  | fuel+1, st, past, hInv, hfuel, i, e, he, hi => by
    rw [simLoop_succ] at he ⊢
    by_cases hcond : st.familyIndex < families.length ∨ st.remaining ≠ []
    · rw [if_pos hcond] at he ⊢
      obtain ⟨hInv', hmn, hfidx, hC2, hC3, hmeas⟩ :=
        simStep_inv families pool0 cpu_count past st hA hInv
      by_cases hempty : (simStep families cpu_count (past.length + 1) st).2.2.1 = []
      · rw [if_pos hempty] at he ⊢
        have hlen : i < past.length + 1 := by
          have h1 := (List.getElem?_eq_some_iff.mp he).1
          simpa using h1
        have hieq : i = past.length := by omega
        subst hieq
        have he2 : e = (simStep families cpu_count (past.length + 1) st).2 := by
          rw [List.getElem?_append_right (le_refl _)] at he
          simp at he
          exact he.symm
        rw [List.take_append_of_le_length (le_refl _), List.take_length]
        subst he2
        exact ⟨hC2, hC3⟩
      · rw [if_neg hempty] at he ⊢
        have hsplit : past ++ (simStep families cpu_count (past.length + 1) st).2 ::
            simLoop families cpu_count fuel (past.length + 1)
              (simStep families cpu_count (past.length + 1) st).1 =
            (past ++ [(simStep families cpu_count (past.length + 1) st).2]) ++
            simLoop families cpu_count fuel (past.length + 1)
              (simStep families cpu_count (past.length + 1) st).1 := by
          simp
        rw [hsplit] at he ⊢
        rcases Nat.lt_or_ge i (past.length + 1) with hcase | hcase
        · have hieq : i = past.length := by omega
          subst hieq
          have hlen2 : past.length <
              (past ++ [(simStep families cpu_count (past.length + 1) st).2]).length := by
            simp
          have he2 : e = (simStep families cpu_count (past.length + 1) st).2 := by
            rw [List.getElem?_append] at he
            rw [if_pos hlen2] at he
            rw [List.getElem?_append_right (le_refl _)] at he
            simp at he
            exact he.symm
          rw [List.take_append_of_le_length (by simp),
            List.take_append_of_le_length (le_refl _), List.take_length]
          subst he2
          exact ⟨hC2, hC3⟩
        · have hlen3 : (past ++ [(simStep families cpu_count
              (past.length + 1) st).2]).length ≤ i := by
            simpa using hcase
          have hmeas2 : measureNat (loopTasks families pool0)
              (past ++ [(simStep families cpu_count (past.length + 1) st).2])
              < fuel := by
            have := hmeas hempty
            omega
          have hplen : (past ++ [(simStep families cpu_count
              (past.length + 1) st).2]).length = past.length + 1 := by
            simp
          have hrec := simLoop_entries families pool0 cpu_count hA fuel
            (simStep families cpu_count (past.length + 1) st).1
            (past ++ [(simStep families cpu_count (past.length + 1) st).2])
            hInv' hmeas2 i e (by rw [hplen]; exact he) (by rw [hplen]; omega)
          rw [hplen] at hrec
          exact hrec
    · rw [if_neg hcond] at he
      have h1 := (List.getElem?_eq_some_iff.mp he).1
      simp at h1
      omega

theorem simLoop_empty_only_last (families : List GroupE) (cpu_count : Nat) :
    ∀ (fuel minute : Nat) (st : SimSt) (i : Nat) (e : Entry),
      (simLoop families cpu_count fuel minute st)[i]? = some e →
      i + 1 < (simLoop families cpu_count fuel minute st).length →
      e.2.1 ≠ []
  | 0, minute, st, i, e, he, hlt => by simp [simLoop] at he
  | fuel+1, minute, st, i, e, he, hlt => by
    rw [simLoop_succ] at he hlt
    by_cases hcond : st.familyIndex < families.length ∨ st.remaining ≠ []
    · rw [if_pos hcond] at he hlt
      by_cases hempty : (simStep families cpu_count (minute + 1) st).2.2.1 = []
      · rw [if_pos hempty] at hlt
        simp at hlt
      · rw [if_neg hempty] at he hlt
        cases i with
        | zero =>
          simp at he
          rw [← he]
          exact hempty
        | succ i' =>
          simp only [List.getElem?_cons_succ] at he
          simp only [List.length_cons] at hlt
          exact simLoop_empty_only_last families cpu_count fuel (minute + 1)
            (simStep families cpu_count (minute + 1) st).1 i' e he
            (by omega)
    · rw [if_neg hcond] at he
      simp at he

theorem simLoop_fuel_indep (families : List GroupE) (pool0 : List TaskE)
    (cpu_count : Nat)
    (hA : ((loopTasks families pool0).map (fun t => t.1)).Nodup) :
    ∀ (f1 f2 : Nat) (st : SimSt) (past : List Entry),
      SimInv families pool0 past st →
      measureNat (loopTasks families pool0) past < f1 →
      measureNat (loopTasks families pool0) past < f2 →
      simLoop families cpu_count f1 past.length st =
        simLoop families cpu_count f2 past.length st
  | 0, _, _, _, _, h1, _ => by omega
  | _+1, 0, _, _, _, _, h2 => by omega
  | f1+1, f2+1, st, past, hInv, h1, h2 => by
    rw [simLoop_succ, simLoop_succ]
    by_cases hcond : st.familyIndex < families.length ∨ st.remaining ≠ []
    · rw [if_pos hcond, if_pos hcond]
      by_cases hempty : (simStep families cpu_count (past.length + 1) st).2.2.1 = []
      · rw [if_pos hempty, if_pos hempty]
      · rw [if_neg hempty, if_neg hempty]
        obtain ⟨hInv', _, _, _, _, hmeas⟩ :=
          simStep_inv families pool0 cpu_count past st hA hInv
        have hm := hmeas hempty
        have hplen : (past ++ [(simStep families cpu_count
            (past.length + 1) st).2]).length = past.length + 1 := by simp
        have hrec := simLoop_fuel_indep families pool0 cpu_count hA f1 f2
          (simStep families cpu_count (past.length + 1) st).1
          (past ++ [(simStep families cpu_count (past.length + 1) st).2])
          hInv' (by omega) (by omega)
        rw [hplen] at hrec
        rw [hrec]
    · rw [if_neg hcond, if_neg hcond]

theorem simLoop_stall (families : List GroupE) (pool0 : List TaskE)
    (cpu_count : Nat)
    (hA : ((loopTasks families pool0).map (fun t => t.1)).Nodup)
    (τ : TaskE) (d : String) (hτA : τ ∈ loopTasks families pool0)
    (hd : d ∈ τ.2.2)
    (hdun : ¬ d ∈ (loopTasks families pool0).map (fun t => t.1)) :
    ∀ (fuel : Nat) (st : SimSt) (past : List Entry),
      SimInv families pool0 past st →
      measureNat (loopTasks families pool0) past < fuel →
      (schedCnt past τ.1 : Int) < τ.2.1 →
      simLoop families cpu_count fuel past.length st ≠ [] ∧
      (∀ e ∈ simLoop families cpu_count fuel past.length st, ¬ τ.1 ∈ e.2.1) ∧
      (∃ mn lbl, (simLoop families cpu_count fuel past.length st).getLast?
        = some (mn, [], lbl))
  | 0, st, past, _, hfuel, _ => by omega
  | fuel+1, st, past, hInv, hfuel, hinc => by
    have hrem : st.remaining ≠ [] := by
      have hfind := hInv.rem_some τ hτA hinc
      intro hc
      rw [hc] at hfind
      simp at hfind
    have hcond : st.familyIndex < families.length ∨ st.remaining ≠ [] :=
      Or.inr hrem
    obtain ⟨hInv', hmn, hfidx, hC2, hC3, hmeas⟩ :=
      simStep_inv families pool0 cpu_count past st hA hInv
    have hτnot : ¬ τ.1 ∈ (simStep families cpu_count (past.length + 1) st).2.2.1 := by
      intro hc
      obtain ⟨δ, hδ, hδe, _⟩ := hC2 τ.1 hc τ hτA rfl d hd
      exact hdun (hδe ▸ List.mem_map_of_mem _ hδ)
    rw [simLoop_succ]
    rw [if_pos hcond]
    by_cases hempty : (simStep families cpu_count (past.length + 1) st).2.2.1 = []
    · rw [if_pos hempty]
      refine ⟨by simp, ?_, ?_⟩
      · intro e hee
        rw [List.mem_singleton] at hee
        rw [hee]
        rw [hempty]
        simp
      · refine ⟨(simStep families cpu_count (past.length + 1) st).2.1,
          (simStep families cpu_count (past.length + 1) st).2.2.2, ?_⟩
        simp only [List.getLast?_singleton]
        congr 1
        have heta : (simStep families cpu_count (past.length + 1) st).2 =
            ((simStep families cpu_count (past.length + 1) st).2.1,
             (simStep families cpu_count (past.length + 1) st).2.2.1,
             (simStep families cpu_count (past.length + 1) st).2.2.2) := rfl
        rw [heta, hempty]
    · rw [if_neg hempty]
      have hinc' : (schedCnt (past ++ [(simStep families cpu_count
          (past.length + 1) st).2]) τ.1 : Int) < τ.2.1 := by
        rw [schedCnt_append_one]
        rw [if_neg hτnot]
        simpa using hinc
      have hplen : (past ++ [(simStep families cpu_count
          (past.length + 1) st).2]).length = past.length + 1 := by simp
      have hrec := simLoop_stall families pool0 cpu_count hA τ d hτA hd hdun
        fuel (simStep families cpu_count (past.length + 1) st).1
        (past ++ [(simStep families cpu_count (past.length + 1) st).2])
        hInv' (by have := hmeas hempty; omega) hinc'
      rw [hplen] at hrec
      obtain ⟨hne, hnot, mn, lbl, hlast⟩ := hrec
      refine ⟨by simp, ?_, ?_⟩
      · intro e hee
        rcases List.mem_cons.mp hee with rfl | hee2
        · exact hτnot
        · exact hnot e hee2
      · refine ⟨mn, lbl, ?_⟩
        cases hc : simLoop families cpu_count fuel (past.length + 1)
            (simStep families cpu_count (past.length + 1) st).1 with
        | nil => exact absurd hc hne
        | cons b l =>
          rw [hc] at hlast
          rw [List.getLast?_cons_cons]
          exact hlast

/-! ## Claim C2: dependencies complete in strictly earlier time units -/

/-- C2: in every trace produced by `execute_tasks` (on a pipeline with
globally unique task names and positive durations), every task
scheduled in some time unit has each of its dependencies resolved to a
pipeline task whose scheduled count over the strictly earlier units
already equals its duration — i.e. every dependency finished in a
strictly earlier unit, never the same one. -/
theorem C2_deps_complete_strictly_earlier (task_list : PipelineE)
    (cpu_count : Nat)
    (hA : ((simTasks task_list).map (fun t => t.1)).Nodup)
    (hD : ∀ t ∈ simTasks task_list, 1 ≤ t.2.1) :
    ∀ i e, (execute_tasks task_list cpu_count)[i]? = some e →
      ∀ n ∈ e.2.1, ∀ τ ∈ simTasks task_list, τ.1 = n →
        ∀ d ∈ τ.2.2, ∃ δ ∈ simTasks task_list, δ.1 = d ∧
          (schedCnt ((execute_tasks task_list cpu_count).take i) d : Int)
            = δ.2.1 := by
  intro i e he n hn τ hτ hτe d hd
  have h := (simLoop_entries (simFamilies task_list) (simPool task_list)
    cpu_count hA (simFuel task_list)
    { remaining := initRemaining (simFamilies task_list) (simPool task_list),
      completed := [], pool := simPool task_list, familyIndex := 0 } []
    (simInv_initial _ _ hA hD) (measure_lt_simFuel task_list)
    i e (by simpa [execute_tasks] using he) (Nat.zero_le i)).1
  have h2 := h n hn τ hτ hτe d hd
  simpa [execute_tasks] using h2

/-- C2 witness: in the two-task chain `A(1) ← B(1,[A])` with one slot,
`B` runs in unit 2 and its dependency `A` completed within the first
unit alone. -/
theorem C2_witness :
    ∃ δ ∈ simTasks [("G1", [("A", 1, []), ("B", 1, ["A"])])], δ.1 = "A" ∧
      (schedCnt ((execute_tasks [("G1", [("A", (1:Int), ([] : List String)),
        ("B", 1, ["A"])])] 1).take 1) "A" : Int) = δ.2.1 :=
  C2_deps_complete_strictly_earlier
    [("G1", [("A", 1, []), ("B", 1, ["A"])])] 1 (by decide) (by decide)
    1 (2, ["B"], "no_group") (by decide) "B" (by decide)
    ("B", 1, ["A"]) (by decide) rfl "A" (by decide)

/-! ## Claim C3: group serialization -/

theorem simStep_fidx_mono (fs : List GroupE) (c m : Nat) (s : SimSt) :
    s.familyIndex ≤ (simStep fs c m s).1.familyIndex := by
  cases hfam : fs[s.familyIndex]? with
  | none => simp [simStep, hfam]
  | some fam =>
    cases hb : (fam.2.all fun t => decide (t.1 ∈ (familyPass c fam.2
        { next := [], current := [], remaining := s.remaining,
          completed := s.completed }).completed)) with
    | true =>
      have h1 : (simStep fs c m s).1.familyIndex = s.familyIndex + 1 := by
        simp [simStep, hfam, hb]
      omega
    | false =>
      have h1 : (simStep fs c m s).1.familyIndex = s.familyIndex := by
        simp [simStep, hfam, hb]
      omega

/-- C3: in every trace of `execute_tasks` (unique names, positive
durations), a task of ordered group `j` is scheduled only after every
task of every earlier ordered group has been scheduled for its full
duration within the strictly earlier units; and the active-group index
of the simulator never decreases across a step. -/
theorem C3_group_serialization (task_list : PipelineE) (cpu_count : Nat)
    (hA : ((simTasks task_list).map (fun t => t.1)).Nodup)
    (hD : ∀ t ∈ simTasks task_list, 1 ≤ t.2.1) :
    (∀ i e, (execute_tasks task_list cpu_count)[i]? = some e →
      ∀ n ∈ e.2.1, ∀ j, ∀ hj : j < (simFamilies task_list).length,
        ∀ τ ∈ ((simFamilies task_list).get ⟨j, hj⟩).2, τ.1 = n →
        ∀ i2, i2 < j → ∀ hi2 : i2 < (simFamilies task_list).length,
          ∀ u ∈ ((simFamilies task_list).get ⟨i2, hi2⟩).2,
            (schedCnt ((execute_tasks task_list cpu_count).take i) u.1 : Int)
              = u.2.1) ∧
    (∀ (fs : List GroupE) (c m : Nat) (s : SimSt),
      s.familyIndex ≤ (simStep fs c m s).1.familyIndex) := by
  constructor
  · intro i e he n hn j hj τ hτ hτe i2 hi2lt hi2 u hu
    have h := (simLoop_entries (simFamilies task_list) (simPool task_list)
      cpu_count hA (simFuel task_list)
      { remaining := initRemaining (simFamilies task_list) (simPool task_list),
        completed := [], pool := simPool task_list, familyIndex := 0 } []
      (simInv_initial _ _ hA hD) (measure_lt_simFuel task_list)
      i e (by simpa [execute_tasks] using he) (Nat.zero_le i)).2
    have h2 := h n hn j hj τ hτ hτe i2 hi2lt hi2 u hu
    simpa [execute_tasks] using h2
  · exact simStep_fidx_mono

/-- C3 witness: with groups `G1 = {A}`, `G2 = {B}` and two slots, `B`
runs in unit 2 and `A` of the earlier group completed within unit 1. -/
theorem C3_witness :
    (schedCnt ((execute_tasks [("G1", [("A", (1:Int), ([] : List String))]),
      ("G2", [("B", 1, [])])] 2).take 1) "A" : Int) = 1 :=
  (C3_group_serialization [("G1", [("A", 1, [])]), ("G2", [("B", 1, [])])] 2
    (by decide) (by decide)).1
    1 (2, ["B"], "no_group") (by decide) "B" (by decide)
    1 (by decide) ("B", 1, []) (by decide) rfl
    0 (by decide) (by decide) ("A", 1, []) (by decide)

/-! ## Claim C5: stalls stop the simulator -/

/-- C5 counterexample: on a stalled run the simulator returns only the
bare truncated trace — the list ending in the empty unit — with no
separate stall flag accompanying it. -/
theorem C5_counterexample :
    execute_tasks [("G1", [("A", 1, ["Z"])])] 1 = [(1, [], "G1")] := by decide

/-- C5 amended: for every pipeline with unique names and positive
durations the minute loop never runs forever — any fuel at least
`simFuel` produces the same finite trace — and a unit that schedules
zero tasks is always the final entry of the trace (the simulator stops
immediately at a stall); the stall is surfaced only through that final
empty entry, not through any separate flag. -/
theorem C5_amended_stall_stops (task_list : PipelineE) (cpu_count : Nat)
    (hA : ((simTasks task_list).map (fun t => t.1)).Nodup)
    (hD : ∀ t ∈ simTasks task_list, 1 ≤ t.2.1) :
    (∀ fuel, simFuel task_list ≤ fuel →
      simLoop (simFamilies task_list) cpu_count fuel 0
        { remaining := initRemaining (simFamilies task_list)
            (simPool task_list),
          completed := [], pool := simPool task_list, familyIndex := 0 }
        = execute_tasks task_list cpu_count) ∧
    (∀ i e, (execute_tasks task_list cpu_count)[i]? = some e →
      i + 1 < (execute_tasks task_list cpu_count).length → e.2.1 ≠ []) := by
  constructor
  · intro fuel hf
    have h := simLoop_fuel_indep (simFamilies task_list) (simPool task_list)
      cpu_count hA fuel (simFuel task_list)
      { remaining := initRemaining (simFamilies task_list) (simPool task_list),
        completed := [], pool := simPool task_list, familyIndex := 0 } []
      (simInv_initial _ _ hA hD)
      (lt_of_lt_of_le (measure_lt_simFuel task_list) hf)
      (measure_lt_simFuel task_list)
    simpa [execute_tasks] using h
  · intro i e he hlt
    exact simLoop_empty_only_last (simFamilies task_list) cpu_count
      (simFuel task_list) 0
      { remaining := initRemaining (simFamilies task_list) (simPool task_list),
        completed := [], pool := simPool task_list, familyIndex := 0 }
      i e (by simpa [execute_tasks] using he)
      (by simpa [execute_tasks] using hlt)

/-- C5 witness: on Scenario A (tasks `A(2)`, `B(1,[A])`, two slots) a
larger fuel budget reproduces the same trace, and the first of its
three units schedules a task. -/
theorem C5_witness :
    (simLoop (simFamilies [("G1", [("A", (2:Int), ([] : List String)),
        ("B", 1, ["A"])])]) 2
      (simFuel [("G1", [("A", 2, []), ("B", 1, ["A"])])] + 5) 0
      { remaining := initRemaining
          (simFamilies [("G1", [("A", 2, []), ("B", 1, ["A"])])])
          (simPool [("G1", [("A", 2, []), ("B", 1, ["A"])])]),
        completed := [],
        pool := simPool [("G1", [("A", 2, []), ("B", 1, ["A"])])],
        familyIndex := 0 }
      = execute_tasks [("G1", [("A", 2, []), ("B", 1, ["A"])])] 2) ∧
    ((1, ["A"], "G1") : Entry).2.1 ≠ [] :=
  ⟨(C5_amended_stall_stops [("G1", [("A", 2, []), ("B", 1, ["A"])])] 2
      (by decide) (by decide)).1
      (simFuel [("G1", [("A", 2, []), ("B", 1, ["A"])])] + 5)
      (Nat.le_add_right _ _),
   (C5_amended_stall_stops [("G1", [("A", 2, []), ("B", 1, ["A"])])] 2
      (by decide) (by decide)).2
      0 (1, ["A"], "G1") (by decide) (by decide)⟩

/-! ## Claim C10: unknown dependency names are never satisfied -/

/-- C10: a dependency name matching no task of the pipeline is never
satisfied: the task declaring it is never scheduled in any unit, the
run produces a non-empty trace, and that trace ends in a stalled unit
that schedules nothing — without any error being raised (the function
returns normally). -/
theorem C10_unknown_dep_stall (task_list : PipelineE) (cpu_count : Nat)
    (hA : ((simTasks task_list).map (fun t => t.1)).Nodup)
    (hD : ∀ t ∈ simTasks task_list, 1 ≤ t.2.1)
    (τ : TaskE) (hτ : τ ∈ simTasks task_list) (d : String) (hd : d ∈ τ.2.2)
    (hdun : ¬ d ∈ (simTasks task_list).map (fun t => t.1)) :
    (∀ e ∈ execute_tasks task_list cpu_count, ¬ τ.1 ∈ e.2.1) ∧
    execute_tasks task_list cpu_count ≠ [] ∧
    (∃ mn lbl, (execute_tasks task_list cpu_count).getLast?
      = some (mn, [], lbl)) := by
  have h := simLoop_stall (simFamilies task_list) (simPool task_list)
    cpu_count hA τ d hτ hd hdun (simFuel task_list)
    { remaining := initRemaining (simFamilies task_list) (simPool task_list),
      completed := [], pool := simPool task_list, familyIndex := 0 } []
    (simInv_initial _ _ hA hD) (measure_lt_simFuel task_list)
    (by
      have := hD τ hτ
      simp [schedCnt]
      omega)
  obtain ⟨h1, h2, h3⟩ := h
  refine ⟨?_, ?_, ?_⟩
  · intro e he
    exact h2 e (by simpa [execute_tasks] using he)
  · simpa [execute_tasks] using h1
  · simpa [execute_tasks] using h3

/-- C10 witness: the single task `A(1, deps [Z])` with no task named
`Z` is never scheduled and the run ends as a one-unit stall. -/
theorem C10_witness :
    (∀ e ∈ execute_tasks [("G1", [("A", (1:Int), ["Z"])])] 1, ¬ "A" ∈ e.2.1) ∧
    execute_tasks [("G1", [("A", (1:Int), ["Z"])])] 1 ≠ [] ∧
    (∃ mn lbl, (execute_tasks [("G1", [("A", (1:Int), ["Z"])])] 1).getLast?
      = some (mn, [], lbl)) :=
  C10_unknown_dep_stall [("G1", [("A", 1, ["Z"])])] 1 (by decide) (by decide)
    ("A", 1, ["Z"]) (by decide) "Z" (by decide) (by decide)

end DagSorting
